import Mathlib

/-!
Verification of the wake-word core of the YUI repository (`yui_io/wake.py`).

The Python module is shallowly embedded over `List Char`:
* `pyStrip`, `collapseWS`, `pyNormalize` model `_normalize`;
* `parseAliases`, `dedupeAux`, `wake_candidates` model `_wake_candidates`;
* `sameLenLe1`, `walkLe1`, `edit_distance_le1` model `_edit_distance_le1`;
* `wait_for_wake_word` models the detector, with the STT transcript and the
  two environment overrides passed as explicit parameters;
* `firstMatch`, `subScanFuel`, `strip_wake_word` model `strip_wake_word`
  and the regex substitution `re.sub(r"\b(?:wake)\b[:,]?\s*", "", t)`.

Spec-side reference definitions (`levDist`, `dedupeFirstSeen`, `subFirst`)
are written from the specification's words and compared with the embedded
code in the theorems.
-/

set_option maxHeartbeats 1000000

namespace Yui

/-- Python whitespace (`str.strip` / regex `\s`) for the character range this
core manipulates: space, tab, line feed, carriage return, vertical tab,
form feed. -/
def isWS (c : Char) : Bool :=
  decide (c.toNat = 32 ∨ c.toNat = 9 ∨ c.toNat = 10 ∨ c.toNat = 13 ∨
    c.toNat = 11 ∨ c.toNat = 12)

/-- Leading-whitespace removal (first half of Python `str.strip()`). -/
def stripLeft (l : List Char) : List Char := l.dropWhile isWS

/-- Python `str.strip()`: drop leading and trailing whitespace. -/
def pyStrip (l : List Char) : List Char :=
  ((stripLeft l).reverse.dropWhile isWS).reverse

/-- `re.sub(r"\s+", " ", ·)`: every maximal nonempty run of whitespace is
replaced by a single ASCII space. -/
def collapseWS : List Char → List Char
  | [] => []
  | [c] => [if isWS c then ' ' else c]
  | c :: d :: cs =>
    if isWS c && isWS d then collapseWS (d :: cs)
    else (if isWS c then ' ' else c) :: collapseWS (d :: cs)

/-- `_normalize(text)` for a present string: `text.strip().lower()` followed by
`re.sub(r"\s+", " ", ·)`.  Python's `str.lower` is modelled by
`Char.toLower` (the wake words and transcripts this core sees are handled
characterwise). -/
def pyNormalize (l : List Char) : List Char :=
  collapseWS ((pyStrip l).map Char.toLower)

/-- `_normalize` applied to an optional string: `(text or "")` maps an absent
string to the empty string before normalizing. -/
def pyNormalizeOpt (t : Option (List Char)) : List Char :=
  pyNormalize (t.getD [])

/-! ### Normal forms of `pyNormalize` -/

/-- No two adjacent whitespace characters. -/
def NoAdjWS (l : List Char) : Prop :=
  List.Chain' (fun a b => ¬(isWS a = true ∧ isWS b = true)) l

instance instDecNoAdjWS : (l : List Char) → Decidable (NoAdjWS l)
  | [] => isTrue List.chain'_nil
  | [_] => isTrue (List.chain'_singleton _)
  | a :: b :: t =>
    haveI := instDecNoAdjWS (b :: t)
    decidable_of_iff (¬(isWS a = true ∧ isWS b = true) ∧ NoAdjWS (b :: t))
      (Iff.symm (@List.chain'_cons Char
        (fun x y => ¬(isWS x = true ∧ isWS y = true)) a b t))

/-- First character, if any, is not whitespace. -/
def headOk (l : List Char) : Bool :=
  match l.head? with
  | none => true
  | some c => !isWS c

/-- Last character, if any, is not whitespace. -/
def lastOk (l : List Char) : Bool :=
  match l.getLast? with
  | none => true
  | some c => !isWS c

/-- Characters are fixed by lowercasing, and every whitespace character is an
ASCII space. -/
def charsOk (l : List Char) : Bool :=
  l.all fun c => (Char.toLower c == c) && (!isWS c || c == ' ')

/-- The normal form produced by `pyNormalize`. -/
def Normalized (l : List Char) : Prop :=
  charsOk l = true ∧ NoAdjWS l ∧ headOk l = true ∧ lastOk l = true

instance (l : List Char) : Decidable (Normalized l) :=
  inferInstanceAs (Decidable (charsOk l = true ∧ NoAdjWS l ∧
    headOk l = true ∧ lastOk l = true))

/-! ### `_wake_candidates` -/

/-- A delimiter of the alias list: the regex `[,\|;]` of `_wake_candidates`. -/
def isDelim (c : Char) : Bool := c = ',' || c = '|' || c = ';'

/-- `re.split(r"[,\|;]\s*", ·)`: split at every delimiter, also skipping the
whitespace run that directly follows a delimiter (the `skip` flag is true
while inside such a run). -/
def splitAliasesAux : Bool → List Char → List (List Char)
  | _, [] => [[]]
  | skip, c :: cs =>
    if skip && isWS c then splitAliasesAux true cs
    else if isDelim c then [] :: splitAliasesAux true cs
    else
      match splitAliasesAux false cs with
      | [] => [[c]]
      | p :: ps => (c :: p) :: ps

/-- The alias list of `_wake_candidates`: the `YUI_WAKE_WORD_ALIASES`
environment value (absent modelled as `none`) is stripped; if non-empty it is
split on delimiters, each part normalized, empty parts dropped. -/
def parseAliases (envAliases : Option (List Char)) : List (List Char) :=
  let env := pyStrip (envAliases.getD [])
  if env.isEmpty then []
  else ((splitAliasesAux false env).map pyNormalize).filter fun p => !p.isEmpty

/-- The dedup loop of `_wake_candidates`: walk the words, skip empty words and
words already in `seen`, keep the rest in order. -/
def dedupeAux : List (List Char) → List (List Char) → List (List Char)
  | [], _ => []
  | w :: ws, seen =>
    if w.isEmpty then dedupeAux ws seen
    else if w ∈ seen then dedupeAux ws seen
    else w :: dedupeAux ws (w :: seen)

/-- The configuration consumed by this core.  The STT pass-through fields
(`stt_language`, timeouts, device indices) are opaque to the wake-word logic
and are not modelled; the STT outcome is a parameter of the detector. -/
structure Settings where
  wake_word : Option (List Char)
deriving DecidableEq

/-- `_wake_candidates(settings)`: normalized primary wake word first, then the
parsed aliases, deduplicated with empties dropped. -/
def wake_candidates (s : Settings) (envAliases : Option (List Char)) :
    List (List Char) :=
  let base := pyNormalize (s.wake_word.getD [])
  dedupeAux (base :: parseAliases envAliases) []

/-- Modelled from the spec (§4.2): "Deduplicates while preserving first-seen
order" — the reference left-fold that appends a word only when unseen. -/
def dedupeFirstSeen (l : List (List Char)) : List (List Char) :=
  l.foldl (fun acc x => if x ∈ acc then acc else acc ++ [x]) []

/-! ### `_edit_distance_le1` -/

/-- Equal-length loop of `_edit_distance_le1`: count character mismatches,
fail as soon as the count would exceed 1. -/
def sameLenLe1 : List Char → List Char → Nat → Bool
  | a :: as, b :: bs, diff =>
    if a = b then sameLenLe1 as bs diff
    else if diff + 1 > 1 then false
    else sameLenLe1 as bs (diff + 1)
  | _, _, _ => true

/-- Two-pointer loop of `_edit_distance_le1` for strings whose lengths differ
by one (`a` is the shorter): on a mismatch only the longer string's pointer
advances and one difference is counted. -/
def walkLe1 : List Char → List Char → Nat → Bool
  | a :: as, b :: bs, diff =>
    if a = b then walkLe1 as bs diff
    else if diff + 1 > 1 then false
    else walkLe1 (a :: as) bs (diff + 1)
  | _, _, _ => true

/-- `_edit_distance_le1(a, b)`. -/
def edit_distance_le1 (a b : List Char) : Bool :=
  if a = b then true
  else if (if a.length ≥ b.length then a.length - b.length
      else b.length - a.length) > 1 then false
  else if a.length = b.length then sameLenLe1 a b 0
  else if a.length > b.length then walkLe1 b a 0
  else walkLe1 a b 0

/-- Modelled from the spec (§4.3): the Levenshtein edit distance with
unit-cost insertion, deletion and substitution — the textbook recurrence. -/
def levDist : List Char → List Char → Nat
  | [], b => b.length
  | a, [] => a.length
  | x :: xs, y :: ys =>
    if x = y then levDist xs ys
    else 1 + min (levDist xs (y :: ys)) (min (levDist (x :: xs) ys) (levDist xs ys))
termination_by a b => a.length + b.length
decreasing_by all_goals (simp [List.length_cons]; try omega)

/-- Number of positions at which two (equal-length) strings differ — the
Hamming count used to characterize the equal-length branch of the matcher. -/
def countDiff : List Char → List Char → Nat
  | x :: xs, y :: ys => (if x = y then 0 else 1) + countDiff xs ys
  | _, _ => 0

/-! ### `wait_for_wake_word` -/

/-- The immutable detection result. -/
structure WakeResult where
  heard : Bool
  transcript : Option (List Char) := none
deriving DecidableEq

/-- Python `str.split()` with no argument: whitespace-delimited tokens,
empties dropped. -/
def pySplit (l : List Char) : List (List Char) :=
  (l.splitOnP isWS).filter fun w => !w.isEmpty

/-- Python substring containment `w in s`. -/
def isSubstring (w : List Char) : List Char → Bool
  | [] => w.isEmpty
  | c :: cs => w.isPrefixOf (c :: cs) || isSubstring w cs

/-- The fuzzy toggle of `wait_for_wake_word`:
`(os.getenv("YUI_WAKE_WORD_FUZZY", "1") or "1").strip() not in {"0", "false", "False"}`.
An absent or empty environment value defaults to `"1"`. -/
def fuzzyEnabled (fuzzyEnv : Option (List Char)) : Bool :=
  let v0 := fuzzyEnv.getD ('1' :: [])
  let v := if v0.isEmpty then '1' :: [] else v0
  let fuzzy := pyStrip v
  !(fuzzy = "0".toList || fuzzy = "false".toList || fuzzy = "False".toList)

/-- `wait_for_wake_word(settings)`.  The environment overrides and the value
returned by the STT collaborator's `listen` call are explicit parameters:
`sttResult` is what `listen` would return, and the detector consults it only
when the candidate set is non-empty. -/
def wait_for_wake_word (s : Settings) (envAliases fuzzyEnv : Option (List Char))
    (sttResult : Option (List Char)) : WakeResult :=
  let candidates := wake_candidates s envAliases
  if candidates.isEmpty then ⟨true, none⟩
  else
    match sttResult with
    | none => ⟨false, none⟩
    | some transcript =>
      if transcript.isEmpty then ⟨false, none⟩
      else
        let norm := pyNormalize transcript
        let words := pySplit norm
        if candidates.any (fun w => words.contains w || isSubstring w norm) then
          ⟨true, some transcript⟩
        else if fuzzyEnabled fuzzyEnv then
          if words.any (fun word =>
              if word.length < 2 || word.length > 6 then false
              else candidates.any fun cand => edit_distance_le1 word cand) then
            ⟨true, some transcript⟩
          else ⟨false, some transcript⟩
        else ⟨false, some transcript⟩

/-! ### `strip_wake_word` -/

/-- Regex `\w`, restricted to the ASCII and Latin-1 letters this core
manipulates: alphanumerics, underscore, and the Latin-1 letter block. -/
def isWordChar (c : Char) : Bool :=
  c.isAlphanum || c = '_' ||
    decide (192 ≤ c.toNat ∧ c.toNat ≤ 255 ∧ c.toNat ≠ 215 ∧ c.toNat ≠ 247)

/-- Word-character status of an optional character (string edges count as
non-word for `\b`). -/
def wordAt : Option Char → Bool
  | none => false
  | some c => isWordChar c

/-- One alternative of `\b(?:wake)\b` at the current position: the candidate
`w` is a non-empty prefix of the remaining text `l` and both word boundaries
hold.  `prevW` is the word-character status of the character just before the
current position. -/
def matchOne (prevW : Bool) (w l : List Char) : Bool :=
  !w.isEmpty && w.isPrefixOf l &&
    (prevW != wordAt w.head?) &&
    (wordAt w.getLast? != wordAt (l.drop w.length).head?)

/-- The optional trailing punctuation `[:,]` of the stripping regex. -/
def isPunct (c : Char) : Bool := c = ':' || c = ','

/-- Whether the text starts with a `[:,]` punctuation character. -/
def punctAt (l : List Char) : Bool :=
  match l.head? with
  | some c => isPunct c
  | none => false

/-- Consume `[:,]?\s*` after the matched candidate; returns the word-character
status of the last consumed character together with the remaining text. -/
def matchRest (w l : List Char) : Bool × List Char :=
  let l1 := l.drop w.length
  let punct := punctAt l1
  let l2 := if punct then l1.tail else l1
  let rest := l2.dropWhile isWS
  (if rest.length = l2.length then
      (if punct then false else wordAt w.getLast?)
    else false, rest)

/-- Try the regex alternatives in order (the candidates, longest first as the
code sorts them) at the current position. -/
def firstMatch (cands : List (List Char)) (prevW : Bool) (l : List Char) :
    Option (Bool × List Char) :=
  match cands with
  | [] => none
  | w :: ws =>
    if matchOne prevW w l then some (matchRest w l) else firstMatch ws prevW l

/-- `re.sub(rf"\b(?:{wake})\b[:,]?\s*", "", ·)`: scan left to right, removing
every non-overlapping match.  Structural recursion on a fuel bounded below by
the text length (each removal consumes at least one character). -/
def subScanFuel (cands : List (List Char)) : Nat → Bool → List Char → List Char
  | 0, _, l => l
  | _ + 1, _, [] => []
  | fuel + 1, prevW, c :: cs =>
    match firstMatch cands prevW (c :: cs) with
    | some (p', rest) => subScanFuel cands fuel p' rest
    | none => c :: subScanFuel cands fuel (isWordChar c) cs

/-- The substitution applied to a whole string. -/
def subAll (cands : List (List Char)) (l : List Char) : List Char :=
  subScanFuel cands l.length false l

/-- One step of Python's stable `sorted`: insert after all kept elements of
length at least `x.length`. -/
def insertByLen (x : List Char) : List (List Char) → List (List Char)
  | [] => [x]
  | y :: ys => if y.length < x.length then x :: y :: ys else y :: insertByLen x ys

/-- Python `sorted(candidates, key=len, reverse=True)` (stable, length
descending). -/
def sortByLenDesc (l : List (List Char)) : List (List Char) :=
  l.foldl (fun acc x => insertByLen x acc) []

/-- `strip_wake_word(text, settings)`. -/
def strip_wake_word (s : Settings) (envAliases : Option (List Char))
    (text : List Char) : List Char :=
  let candidates := wake_candidates s envAliases
  if candidates.isEmpty then pyNormalize text
  else pyStrip (subAll (sortByLenDesc candidates) (pyNormalize text))

/-- Modelled from the spec (§4.5): "Remove the first whole-word occurrence of
any candidate … then trim the result" — the same match semantics as `subAll`
but stopping after the first removal. -/
def subFirst (cands : List (List Char)) : Bool → List Char → List Char
  | _, [] => []
  | prevW, c :: cs =>
    match firstMatch cands prevW (c :: cs) with
    | some (_, rest) => rest
    | none => c :: subFirst cands (isWordChar c) cs

/-- Modelled from the spec (§4.5): `strip_wake_word` as the spec words it,
removing only the first occurrence. -/
def strip_wake_word_spec (s : Settings) (envAliases : Option (List Char))
    (text : List Char) : List Char :=
  let candidates := wake_candidates s envAliases
  if candidates.isEmpty then pyNormalize text
  else pyStrip (subFirst (sortByLenDesc candidates) false (pyNormalize text))

/-- Modelled from the spec (§4.5, "whole-word occurrence of any candidate
(word-boundary-delimited)"): a whole-word occurrence of `w` inside `l`,
relative to a left context — `p` is the word-character status of the
character just before `l` (`false` at the start of the string).  The
occurrence is delimited by word boundaries: the character before it (if any)
and the character after it (if any) are not word characters. -/
def CtxWholeWord (p : Bool) (w l : List Char) : Prop :=
  ∃ u v : List Char, l = u ++ w ++ v ∧
    (u = [] → p = false) ∧
    (∀ c, u.getLast? = some c → isWordChar c = false) ∧
    (∀ c, v.head? = some c → isWordChar c = false)

/-- Modelled from the spec: a whole-word (word-boundary-delimited) occurrence
of `w` somewhere in the string `l`. -/
def HasWholeWord (w l : List Char) : Prop := CtxWholeWord false w l

/-- A configuration whose wake word is `"yui"`, used by concrete scenarios. -/
def yuiSettings : Settings := ⟨some "yui".toList⟩

/-- `n` repetitions of `"yui "` followed by `"dime la hora"`. -/
def repeatedWake : Nat → List Char
  | 0 => "dime la hora".toList
  | n + 1 => "yui ".toList ++ repeatedWake n

lemma char_ofNat_toNat {n : Nat} (h : n.isValidChar) :
    (Char.ofNat n).toNat = n := by
  simp [Char.ofNat, h, Char.toNat, Char.ofNatAux, UInt32.toNat]

lemma char_toNat_injective {a b : Char} (h : a.toNat = b.toNat) : a = b := by
  have := congrArg Char.ofNat h
  rwa [Char.ofNat_toNat, Char.ofNat_toNat] at this

lemma toNat_toLower (c : Char) :
    (Char.toLower c).toNat =
      if 65 ≤ c.toNat ∧ c.toNat ≤ 90 then c.toNat + 32 else c.toNat := by
  unfold Char.toLower
  show (if c.toNat ≥ 65 ∧ c.toNat ≤ 90 then Char.ofNat (c.toNat + 32)
      else c).toNat = _
  by_cases h : 65 ≤ c.toNat ∧ c.toNat ≤ 90
  · rw [if_pos h, if_pos h]
    exact char_ofNat_toNat (Or.inl (by omega))
  · rw [if_neg h, if_neg h]

lemma toLower_toLower (c : Char) :
    Char.toLower (Char.toLower c) = Char.toLower c := by
  apply char_toNat_injective
  rw [toNat_toLower, toNat_toLower c]
  by_cases h : 65 ≤ c.toNat ∧ c.toNat ≤ 90
  · rw [if_pos h, if_neg (by omega)]
  · rw [if_neg h, if_neg h]

lemma isWS_toLower (c : Char) : isWS (Char.toLower c) = isWS c := by
  unfold isWS
  rw [toNat_toLower]
  by_cases h : 65 ≤ c.toNat ∧ c.toNat ≤ 90
  · rw [if_pos h]
    exact decide_eq_decide.2 (by omega)
  · rw [if_neg h]

lemma toLower_space : Char.toLower ' ' = ' ' := by decide

/-! ### `collapseWS`: output facts -/

lemma collapseWS_ne_nil {l : List Char} (h : l ≠ []) : collapseWS l ≠ [] := by
  induction l with
  | nil => exact absurd rfl h
  | cons c cs ih =>
    cases cs with
    | nil => simp [collapseWS]
    | cons d ds =>
      rw [collapseWS]
      by_cases hcd : (isWS c && isWS d) = true
      · rw [if_pos hcd]; exact ih (by simp)
      · rw [if_neg hcd]; simp

lemma collapseWS_head_of_not_ws {d : Char} {cs : List Char}
    (h : isWS d = false) : collapseWS (d :: cs) = d :: collapseWS cs := by
  cases cs with
  | nil => simp [collapseWS, h]
  | cons e es => rw [collapseWS, if_neg (by simp [h]), if_neg (by simp [h])]

lemma collapseWS_mem {l : List Char} {c : Char} (h : c ∈ collapseWS l) :
    c ∈ l ∨ c = ' ' := by
  induction l with
  | nil => simp [collapseWS] at h
  | cons a cs ih =>
    cases cs with
    | nil =>
      simp only [collapseWS, List.mem_singleton] at h
      by_cases hw : isWS a = true
      · right; simpa [hw] using h
      · left; simp [hw] at h; simp [h]
    | cons d ds =>
      rw [collapseWS] at h
      by_cases hcd : (isWS a && isWS d) = true
      · rw [if_pos hcd] at h
        rcases ih h with h' | h'
        · exact Or.inl (List.mem_cons_of_mem _ h')
        · exact Or.inr h'
      · rw [if_neg hcd] at h
        rcases List.mem_cons.1 h with h' | h'
        · by_cases hw : isWS a = true
          · right; simpa [hw] using h'
          · left; simp [hw] at h'; simp [h']
        · rcases ih h' with h'' | h''
          · exact Or.inl (List.mem_cons_of_mem _ h'')
          · exact Or.inr h''

lemma collapseWS_ws_space {l : List Char} {c : Char}
    (hm : c ∈ collapseWS l) (hw : isWS c = true) : c = ' ' := by
  induction l with
  | nil => simp [collapseWS] at hm
  | cons a cs ih =>
    cases cs with
    | nil =>
      simp only [collapseWS, List.mem_singleton] at hm
      by_cases ha : isWS a = true
      · simpa [ha] using hm
      · simp [ha] at hm; rw [hm] at hw; simp [ha] at hw
    | cons d ds =>
      rw [collapseWS] at hm
      by_cases hcd : (isWS a && isWS d) = true
      · rw [if_pos hcd] at hm; exact ih hm
      · rw [if_neg hcd] at hm
        rcases List.mem_cons.1 hm with h' | h'
        · by_cases ha : isWS a = true
          · simpa [ha] using h'
          · simp [ha] at h'; rw [h'] at hw; simp [ha] at hw
        · exact ih h'

lemma collapseWS_noAdjWS (l : List Char) : NoAdjWS (collapseWS l) := by
  induction l with
  | nil => simp [collapseWS, NoAdjWS]
  | cons a cs ih =>
    cases cs with
    | nil =>
      by_cases ha : isWS a = true <;>
        simp [collapseWS, NoAdjWS, ha, List.chain'_singleton]
    | cons d ds =>
      rw [collapseWS]
      by_cases hcd : (isWS a && isWS d) = true
      · rw [if_pos hcd]; exact ih
      · rw [if_neg hcd]
        have hrest : NoAdjWS (collapseWS (d :: ds)) := ih
        by_cases hd : isWS d = true
        · -- then `a` is not whitespace, and the head of the rest may be ' '
          have ha : isWS a = false := by
            cases hha : isWS a
            · rfl
            · exfalso; exact hcd (by simp [hha, hd])
          rw [if_neg (by simp [ha])]
          unfold NoAdjWS
          cases hco : collapseWS (d :: ds) with
          | nil => simp
          | cons e es =>
            rw [List.chain'_cons]
            refine ⟨?_, by rw [← hco]; exact hrest⟩
            rintro ⟨hwa, -⟩
            rw [ha] at hwa; exact Bool.false_ne_true hwa
        · -- head of the rest is `d`, not whitespace
          rw [collapseWS_head_of_not_ws (by simpa using hd)] at hrest ⊢
          unfold NoAdjWS
          rw [List.chain'_cons]
          exact ⟨fun hc => hd hc.2, hrest⟩

lemma collapseWS_headOk {l : List Char} (h : headOk l = true) :
    headOk (collapseWS l) = true := by
  cases l with
  | nil => simp [collapseWS, headOk]
  | cons a cs =>
    have ha : isWS a = false := by
      simp only [headOk, List.head?_cons, Bool.not_eq_true'] at h; exact h
    rw [collapseWS_head_of_not_ws ha]
    simp [headOk, ha]

lemma collapseWS_lastOk {l : List Char} (h : lastOk l = true) :
    lastOk (collapseWS l) = true := by
  induction l with
  | nil => simp [collapseWS, lastOk]
  | cons a cs ih =>
    cases cs with
    | nil =>
      have ha : isWS a = false := by
        simp only [lastOk, List.getLast?_singleton, Bool.not_eq_true'] at h
        exact h
      simp [collapseWS, lastOk, ha]
    | cons d ds =>
      have htail : lastOk (d :: ds) = true := by
        unfold lastOk at h ⊢
        rwa [List.getLast?_cons_cons] at h
      rw [collapseWS]
      by_cases hcd : (isWS a && isWS d) = true
      · rw [if_pos hcd]; exact ih htail
      · rw [if_neg hcd]
        have hne : collapseWS (d :: ds) ≠ [] := collapseWS_ne_nil (by simp)
        have := ih htail
        unfold lastOk at this ⊢
        cases hco : collapseWS (d :: ds) with
        | nil => exact absurd hco hne
        | cons e es =>
          rw [List.getLast?_cons_cons]
          rwa [hco] at this

/-! ### Fixed points of the normalization stages -/

lemma stripLeft_of_headOk {l : List Char} (h : headOk l = true) :
    stripLeft l = l := by
  cases l with
  | nil => rfl
  | cons a cs =>
    have ha : isWS a = false := by
      simp only [headOk, List.head?_cons, Bool.not_eq_true'] at h; exact h
    simp [stripLeft, List.dropWhile_cons, ha]

lemma pyStrip_of_ok {l : List Char} (hh : headOk l = true)
    (hl : lastOk l = true) : pyStrip l = l := by
  unfold pyStrip
  rw [stripLeft_of_headOk hh]
  have : l.reverse.dropWhile isWS = l.reverse := by
    cases hr : l.reverse with
    | nil => rfl
    | cons a cs =>
      have : l.getLast? = some a := by
        rw [← List.head?_reverse, hr, List.head?_cons]
      have ha : isWS a = false := by
        unfold lastOk at hl
        rw [this] at hl
        simpa using hl
      simp [List.dropWhile_cons, ha]
  rw [this, List.reverse_reverse]

lemma map_toLower_of_charsOk {l : List Char} (h : charsOk l = true) :
    l.map Char.toLower = l := by
  induction l with
  | nil => rfl
  | cons a cs ih =>
    unfold charsOk at h
    rw [List.all_cons, Bool.and_eq_true] at h
    obtain ⟨ha, hcs⟩ := h
    rw [Bool.and_eq_true, beq_iff_eq] at ha
    simp only [List.map_cons, ha.1, ih hcs]

lemma collapseWS_of_normal {l : List Char} (hadj : NoAdjWS l)
    (hws : ∀ c ∈ l, isWS c = true → c = ' ') : collapseWS l = l := by
  induction l with
  | nil => rfl
  | cons a cs ih =>
    cases cs with
    | nil =>
      by_cases ha : isWS a = true
      · have := hws a (by simp) ha
        simp [collapseWS, ha, this]
      · simp [collapseWS, ha]
    | cons d ds =>
      unfold NoAdjWS at hadj
      rw [List.chain'_cons] at hadj
      obtain ⟨had, htail⟩ := hadj
      have hcd : (isWS a && isWS d) = false := by
        cases hwa : isWS a
        · simp
        · cases hwd : isWS d
          · simp
          · exact absurd ⟨hwa, hwd⟩ had
      rw [collapseWS, if_neg (by simp [hcd])]
      have hrest : collapseWS (d :: ds) = d :: ds :=
        ih htail (fun c hc => hws c (List.mem_cons_of_mem _ hc))
      rw [hrest]
      by_cases ha : isWS a = true
      · rw [if_pos ha, hws a (by simp) ha]
      · rw [if_neg ha]

lemma normalized_fixed {l : List Char} (h : Normalized l) :
    pyNormalize l = l := by
  obtain ⟨hchars, hadj, hh, hl⟩ := h
  unfold pyNormalize
  rw [pyStrip_of_ok hh hl, map_toLower_of_charsOk hchars]
  refine collapseWS_of_normal hadj fun c hc hw => ?_
  unfold charsOk at hchars
  rw [List.all_eq_true] at hchars
  have := hchars c hc
  rw [Bool.and_eq_true] at this
  rcases Bool.or_eq_true_iff.1 this.2 with h' | h'
  · rw [hw] at h'; exact absurd h' (by simp)
  · exact beq_iff_eq.1 h'

lemma headOk_dropWhile (l : List Char) : headOk (l.dropWhile isWS) = true := by
  induction l with
  | nil => simp [headOk]
  | cons a cs ih =>
    rw [List.dropWhile_cons]
    by_cases ha : isWS a = true
    · rw [if_pos ha]; exact ih
    · rw [if_neg ha]; simp [headOk, ha]

lemma headOk_of_prefix {l₁ l₂ : List Char} (h : l₁ <+: l₂)
    (h₂ : headOk l₂ = true) : headOk l₁ = true := by
  cases l₁ with
  | nil => simp [headOk]
  | cons a cs =>
    obtain ⟨t, ht⟩ := h
    rw [← ht] at h₂
    simpa [headOk] using h₂

lemma stripLeft_headOk (l : List Char) : headOk (stripLeft l) = true :=
  headOk_dropWhile l

lemma pyStrip_isPrefix (l : List Char) : pyStrip l <+: stripLeft l := by
  unfold pyStrip
  have hsuf : (stripLeft l).reverse.dropWhile isWS <:+ (stripLeft l).reverse :=
    List.dropWhile_suffix _
  have h := List.reverse_prefix.2 hsuf
  rwa [List.reverse_reverse] at h

lemma pyStrip_headOk (l : List Char) : headOk (pyStrip l) = true :=
  headOk_of_prefix (pyStrip_isPrefix l) (stripLeft_headOk l)

lemma pyStrip_lastOk (l : List Char) : lastOk (pyStrip l) = true := by
  unfold pyStrip lastOk
  rw [List.getLast?_reverse]
  have h := headOk_dropWhile (stripLeft l).reverse
  unfold headOk at h
  cases hh : ((stripLeft l).reverse.dropWhile isWS).head? with
  | none => simp
  | some a => rw [hh] at h; exact h

lemma pyStrip_isInfix (l : List Char) : pyStrip l <:+: l := by
  have h1 : pyStrip l <+: stripLeft l := pyStrip_isPrefix l
  have h2 : stripLeft l <:+ l := List.dropWhile_suffix _
  exact List.IsPrefix.isInfix h1 |>.trans (List.IsSuffix.isInfix h2)

/-- `pyNormalize` always lands in the normal form. -/
lemma pyNormalize_normalized (l : List Char) : Normalized (pyNormalize l) := by
  unfold pyNormalize
  set m := (pyStrip l).map Char.toLower with hm
  have hmchars : ∀ c ∈ m, Char.toLower c = c := by
    intro c hc
    rw [hm, List.mem_map] at hc
    obtain ⟨d, -, hd⟩ := hc
    rw [← hd]; exact toLower_toLower d
  refine ⟨?_, collapseWS_noAdjWS m, ?_, ?_⟩
  · unfold charsOk
    rw [List.all_eq_true]
    intro c hc
    rw [Bool.and_eq_true]
    constructor
    · rcases collapseWS_mem hc with h' | h'
      · exact beq_iff_eq.2 (hmchars c h')
      · rw [h']; exact beq_iff_eq.2 (by decide)
    · by_cases hw : isWS c = true
      · rw [collapseWS_ws_space hc hw]; simp
      · simp [hw]
  · refine collapseWS_headOk ?_
    cases hps : pyStrip l with
    | nil => rw [hm, hps]; simp [headOk]
    | cons b bs =>
      have hap : headOk (pyStrip l) = true := pyStrip_headOk l
      rw [hps] at hap
      rw [hm, hps, List.map_cons]
      show (!isWS (Char.toLower b)) = true
      rw [isWS_toLower]
      exact hap
  · refine collapseWS_lastOk ?_
    have hap : lastOk (pyStrip l) = true := pyStrip_lastOk l
    unfold lastOk at hap ⊢
    rw [hm, List.getLast?_map]
    cases hg : (pyStrip l).getLast? with
    | none => simp
    | some a =>
      rw [hg] at hap
      simp only [Option.map_some']
      show (!isWS (Char.toLower a)) = true
      rw [isWS_toLower]
      exact hap

/-! ### Claim C5: normalization is idempotent -/

lemma pyNormalize_idem (x : List Char) :
    pyNormalize (pyNormalize x) = pyNormalize x :=
  normalized_fixed (pyNormalize_normalized x)

/-- **C5**: normalization is idempotent — for every string `x` (and for the
optional-string wrapper handling an absent transcript),
`normalize(normalize(x)) = normalize(x)`. -/
theorem claim_C5_normalize_idempotent :
    (∀ x : List Char, pyNormalize (pyNormalize x) = pyNormalize x) ∧
      ∀ t : Option (List Char),
        pyNormalizeOpt (some (pyNormalizeOpt t)) = pyNormalizeOpt t :=
  ⟨pyNormalize_idem, fun t => pyNormalize_idem (t.getD [])⟩

/-! ### Claim C6: the candidate set -/

lemma dedupeAux_mem : ∀ {l seen : List (List Char)} {x : List Char},
    x ∈ dedupeAux l seen → x ∈ l ∧ x ∉ seen ∧ x ≠ [] := by
  intro l
  induction l with
  | nil => intro seen x hx; simp [dedupeAux] at hx
  | cons w ws ih =>
    intro seen x hx
    rw [dedupeAux] at hx
    by_cases he : w.isEmpty
    · rw [if_pos he] at hx
      obtain ⟨h1, h2, h3⟩ := ih hx
      exact ⟨List.mem_cons_of_mem _ h1, h2, h3⟩
    · rw [if_neg he] at hx
      by_cases hs : w ∈ seen
      · rw [if_pos hs] at hx
        obtain ⟨h1, h2, h3⟩ := ih hx
        exact ⟨List.mem_cons_of_mem _ h1, h2, h3⟩
      · rw [if_neg hs] at hx
        rcases List.mem_cons.1 hx with h | h
        · subst h
          exact ⟨List.mem_cons_self _ _, hs,
            by simpa [List.isEmpty_iff] using he⟩
        · obtain ⟨h1, h2, h3⟩ := ih h
          exact ⟨List.mem_cons_of_mem _ h1,
            fun hc => h2 (List.mem_cons_of_mem _ hc), h3⟩

lemma dedupeAux_nodup : ∀ (l seen : List (List Char)),
    (dedupeAux l seen).Nodup := by
  intro l
  induction l with
  | nil => intro seen; simp [dedupeAux]
  | cons w ws ih =>
    intro seen
    rw [dedupeAux]
    by_cases he : w.isEmpty
    · rw [if_pos he]; exact ih _
    · rw [if_neg he]
      by_cases hs : w ∈ seen
      · rw [if_pos hs]; exact ih _
      · rw [if_neg hs]
        refine List.nodup_cons.2 ⟨fun hc => ?_, ih _⟩
        exact (dedupeAux_mem hc).2.1 (List.mem_cons_self _ _)

lemma dedupeAux_filter : ∀ (l seen : List (List Char)),
    dedupeAux l seen = dedupeAux (l.filter fun w => !w.isEmpty) seen := by
  intro l
  induction l with
  | nil => intro seen; simp [dedupeAux]
  | cons w ws ih =>
    intro seen
    rw [List.filter_cons]
    by_cases he : w.isEmpty
    · rw [if_neg (by simp [he])]
      conv_lhs => rw [dedupeAux]
      rw [if_pos he]
      exact ih seen
    · rw [if_pos (by simp [he])]
      conv_lhs => rw [dedupeAux]
      conv_rhs => rw [dedupeAux]
      rw [if_neg he, if_neg he]
      by_cases hs : w ∈ seen
      · rw [if_pos hs, if_pos hs]; exact ih seen
      · rw [if_neg hs, if_neg hs, ih (w :: seen)]

lemma foldl_dedupe : ∀ (l acc seen : List (List Char)),
    (∀ x ∈ l, x ≠ []) → (∀ x, x ∈ seen ↔ x ∈ acc) →
    List.foldl (fun acc x => if x ∈ acc then acc else acc ++ [x]) acc l =
      acc ++ dedupeAux l seen := by
  intro l
  induction l with
  | nil => intro acc seen _ _; simp [dedupeAux]
  | cons w ws ih =>
    intro acc seen hne hiff
    have hw : ¬w.isEmpty = true := by
      simp only [List.isEmpty_iff]
      exact hne w (List.mem_cons_self _ _)
    rw [List.foldl_cons, dedupeAux, if_neg hw]
    by_cases hacc : w ∈ acc
    · rw [if_pos hacc, if_pos ((hiff w).2 hacc)]
      exact ih acc seen (fun x hx => hne x (List.mem_cons_of_mem _ hx)) hiff
    · rw [if_neg hacc, if_neg (fun hc => hacc ((hiff w).1 hc))]
      rw [ih (acc ++ [w]) (w :: seen)
        (fun x hx => hne x (List.mem_cons_of_mem _ hx))
        (fun x => by
          rw [List.mem_cons, List.mem_append, List.mem_singleton, hiff x,
            or_comm])]
      rw [List.append_assoc, List.singleton_append]

/-- **C6**: the candidate set has no duplicates and no empty entries, and
equals the first-seen deduplication of the normalized primary wake word
followed by the parsed aliases in source order (empties dropped): primary
first, aliases in declared order, later duplicates removed. -/
theorem claim_C6_candidate_set (s : Settings) (envAliases : Option (List Char)) :
    (wake_candidates s envAliases).Nodup ∧
    (wake_candidates s envAliases).contains [] = false ∧
    wake_candidates s envAliases =
      dedupeFirstSeen
        ((pyNormalize (s.wake_word.getD []) :: parseAliases envAliases).filter
          fun w => !w.isEmpty) := by
  refine ⟨dedupeAux_nodup _ _, ?_, ?_⟩
  · cases hc : (wake_candidates s envAliases).contains []
    · rfl
    · exfalso
      have hm : ([] : List Char) ∈ wake_candidates s envAliases := by
        have : List.elem ([] : List Char) (wake_candidates s envAliases) = true := hc
        exact List.elem_iff.1 this
      exact (dedupeAux_mem hm).2.2 rfl
  · unfold wake_candidates dedupeFirstSeen
    rw [foldl_dedupe _ [] []
      (fun x hx => by
        rw [List.mem_filter] at hx
        simpa [List.isEmpty_iff] using hx.2)
      (fun x => by simp)]
    rw [List.nil_append, ← dedupeAux_filter]

/-! ### Claims C3, C4, C9, C7, C8: the detector -/

lemma isSubstring_iff (w l : List Char) : isSubstring w l = true ↔ w <:+: l := by
  induction l with
  | nil => simp [isSubstring, List.isEmpty_iff, List.infix_nil]
  | cons c cs ih =>
    rw [isSubstring, Bool.or_eq_true, ih, List.isPrefixOf_iff_prefix,
      List.infix_cons_iff]

lemma contains_iff_mem (ws : List (List Char)) (w : List Char) :
    ws.contains w = true ↔ w ∈ ws := List.elem_iff

/-- **C3**: with an empty candidate set the detector immediately returns
`{heard := true, transcript := none}`, whatever the STT collaborator would
have produced — the result is independent of `sttResult`, so `listen` is
never consulted. -/
theorem claim_C3_disabled_wake (s : Settings)
    (envAliases fuzzyEnv sttResult : Option (List Char))
    (h : wake_candidates s envAliases = []) :
    wait_for_wake_word s envAliases fuzzyEnv sttResult = ⟨true, none⟩ := by
  simp [wait_for_wake_word, h]

/-- Witness for C3: the empty configuration has an empty candidate set and the
detector answers `heard = true`, `transcript = none` even though the STT
value is present. -/
theorem claim_C3_witness :
    wake_candidates ⟨none⟩ none = [] ∧
      wait_for_wake_word ⟨none⟩ none none (some "hola".toList) =
        ⟨true, none⟩ :=
  ⟨rfl, claim_C3_disabled_wake ⟨none⟩ none none (some "hola".toList) rfl⟩

/-- **C4**: with a non-empty candidate set, an absent or empty transcript
yields `{heard := false, transcript := none}`. -/
theorem claim_C4_silence (s : Settings)
    (envAliases fuzzyEnv sttResult : Option (List Char))
    (hne : wake_candidates s envAliases ≠ [])
    (habs : sttResult = none ∨ sttResult = some []) :
    wait_for_wake_word s envAliases fuzzyEnv sttResult = ⟨false, none⟩ := by
  have hni : (wake_candidates s envAliases).isEmpty = false := by
    cases h : wake_candidates s envAliases with
    | nil => exact absurd h hne
    | cons a l => rfl
  rcases habs with h | h <;> subst h <;> simp [wait_for_wake_word, hni]

/-- Witness for C4: wake word `"yui"`, STT times out (`none`). -/
theorem claim_C4_witness :
    wake_candidates yuiSettings none ≠ [] ∧
      wait_for_wake_word yuiSettings none none none = ⟨false, none⟩ :=
  ⟨by decide, claim_C4_silence yuiSettings none none none (by decide)
    (Or.inl rfl)⟩

/-- Evaluation of the detector once the candidate set and the transcript are
known to be non-empty: the remaining behaviour is the exact/substring pass
followed by the fuzzy pass. -/
lemma wait_for_wake_word_eval (s : Settings)
    (envAliases fuzzyEnv : Option (List Char)) (t : List Char)
    (hni : (wake_candidates s envAliases).isEmpty = false)
    (hti : t.isEmpty = false) :
    wait_for_wake_word s envAliases fuzzyEnv (some t) =
      (if (wake_candidates s envAliases).any
          (fun w => (pySplit (pyNormalize t)).contains w ||
            isSubstring w (pyNormalize t)) then
        ⟨true, some t⟩
      else if fuzzyEnabled fuzzyEnv then
        if (pySplit (pyNormalize t)).any (fun word =>
            if word.length < 2 || word.length > 6 then false
            else (wake_candidates s envAliases).any fun cand =>
              edit_distance_le1 word cand) then
          ⟨true, some t⟩
        else ⟨false, some t⟩
      else ⟨false, some t⟩) := by
  show (if (wake_candidates s envAliases).isEmpty then (⟨true, none⟩ : WakeResult)
      else if t.isEmpty then ⟨false, none⟩
      else if (wake_candidates s envAliases).any
          (fun w => (pySplit (pyNormalize t)).contains w ||
            isSubstring w (pyNormalize t)) then
        ⟨true, some t⟩
      else if fuzzyEnabled fuzzyEnv then
        if (pySplit (pyNormalize t)).any (fun word =>
            if word.length < 2 || word.length > 6 then false
            else (wake_candidates s envAliases).any fun cand =>
              edit_distance_le1 word cand) then
          ⟨true, some t⟩
        else ⟨false, some t⟩
      else ⟨false, some t⟩) = _
  rw [hni, hti, if_neg Bool.false_ne_true, if_neg Bool.false_ne_true]

/-- **C9**: with a non-empty candidate set and a non-empty transcript, if some
candidate equals a whitespace-delimited token of the normalized transcript or
occurs as a contiguous substring of it, the detector answers `heard = true`
and preserves the original (un-normalized) transcript. -/
theorem claim_C9_exact_substring (s : Settings)
    (envAliases fuzzyEnv : Option (List Char)) (t : List Char)
    (ht : t ≠ [])
    (hmatch : ∃ w ∈ wake_candidates s envAliases,
      w ∈ pySplit (pyNormalize t) ∨ w <:+: pyNormalize t) :
    wait_for_wake_word s envAliases fuzzyEnv (some t) = ⟨true, some t⟩ := by
  have hne : wake_candidates s envAliases ≠ [] := by
    rintro h
    rw [h] at hmatch
    simp at hmatch
  have hni : (wake_candidates s envAliases).isEmpty = false := by
    cases h : wake_candidates s envAliases with
    | nil => exact absurd h hne
    | cons a l => rfl
  have hti : t.isEmpty = false := by
    cases h : t with
    | nil => exact absurd h ht
    | cons a l => rfl
  have hany : (wake_candidates s envAliases).any
      (fun w => (pySplit (pyNormalize t)).contains w ||
        isSubstring w (pyNormalize t)) = true := by
    rw [List.any_eq_true]
    obtain ⟨w, hw, hcase⟩ := hmatch
    refine ⟨w, hw, ?_⟩
    rw [Bool.or_eq_true, contains_iff_mem, isSubstring_iff]
    exact hcase
  rw [wait_for_wake_word_eval s envAliases fuzzyEnv t hni hti, if_pos hany]

/-- Witness for C9: the embedded scenario `"oye yui apaga la luz"`. -/
theorem claim_C9_witness :
    wait_for_wake_word yuiSettings none none (some "oye yui apaga la luz".toList) =
      ⟨true, some "oye yui apaga la luz".toList⟩ :=
  claim_C9_exact_substring yuiSettings none none "oye yui apaga la luz".toList
    (by decide) (by decide)

/-- **C7**: when the exact/substring pass fails and fuzzy matching is enabled,
the detector answers `heard = true` (with the original transcript) exactly
when some token of the normalized transcript whose length lies between 2 and
6 inclusive is within the bounded edit distance of some candidate; tokens
outside those bounds never contribute. -/
theorem claim_C7_fuzzy_pass (s : Settings)
    (envAliases fuzzyEnv : Option (List Char)) (t : List Char)
    (hne : wake_candidates s envAliases ≠ []) (ht : t ≠ [])
    (hexact : ∀ w ∈ wake_candidates s envAliases,
      w ∉ pySplit (pyNormalize t) ∧ ¬(w <:+: pyNormalize t))
    (hfz : fuzzyEnabled fuzzyEnv = true) :
    wait_for_wake_word s envAliases fuzzyEnv (some t) = ⟨true, some t⟩ ↔
      ∃ word ∈ pySplit (pyNormalize t), (2 ≤ word.length ∧ word.length ≤ 6) ∧
        ∃ w ∈ wake_candidates s envAliases, edit_distance_le1 word w = true := by
  have hni : (wake_candidates s envAliases).isEmpty = false := by
    cases h : wake_candidates s envAliases with
    | nil => exact absurd h hne
    | cons a l => rfl
  have hti : t.isEmpty = false := by
    cases h : t with
    | nil => exact absurd h ht
    | cons a l => rfl
  have hnoex : (wake_candidates s envAliases).any
      (fun w => (pySplit (pyNormalize t)).contains w ||
        isSubstring w (pyNormalize t)) = false := by
    rw [← Bool.not_eq_true, List.any_eq_true]
    rintro ⟨w, hw, hcase⟩
    rw [Bool.or_eq_true, contains_iff_mem, isSubstring_iff] at hcase
    obtain ⟨h1, h2⟩ := hexact w hw
    rcases hcase with h | h
    · exact h1 h
    · exact h2 h
  have hiff : ∀ word : List Char,
      ((if word.length < 2 || word.length > 6 then false
        else (wake_candidates s envAliases).any fun cand =>
          edit_distance_le1 word cand) = true) ↔
      ((2 ≤ word.length ∧ word.length ≤ 6) ∧
        ∃ w ∈ wake_candidates s envAliases, edit_distance_le1 word w = true) := by
    intro word
    by_cases hlen : (word.length < 2 || word.length > 6) = true
    · rw [if_pos hlen]
      rw [Bool.or_eq_true, decide_eq_true_eq, decide_eq_true_eq] at hlen
      refine iff_of_false Bool.false_ne_true ?_
      rintro ⟨⟨h1, h2⟩, -⟩
      omega
    · rw [if_neg hlen, List.any_eq_true]
      rw [Bool.or_eq_true, decide_eq_true_eq, decide_eq_true_eq, not_or] at hlen
      have : 2 ≤ word.length ∧ word.length ≤ 6 := by omega
      simp [this]
  rw [wait_for_wake_word_eval s envAliases fuzzyEnv t hni hti, hnoex,
    if_neg Bool.false_ne_true, hfz, if_pos rfl]
  by_cases hany : (pySplit (pyNormalize t)).any (fun word =>
      if word.length < 2 || word.length > 6 then false
      else (wake_candidates s envAliases).any fun cand =>
        edit_distance_le1 word cand) = true
  · rw [if_pos hany]
    rw [List.any_eq_true] at hany
    obtain ⟨word, hmem, hword⟩ := hany
    exact iff_of_true rfl ⟨word, hmem, (hiff word).1 hword⟩
  · rw [if_neg hany]
    refine iff_of_false (fun hres => ?_) (fun hex => ?_)
    · exact Bool.false_ne_true (congrArg WakeResult.heard hres)
    · obtain ⟨word, hmem, hstuff⟩ := hex
      exact hany (List.any_eq_true.2 ⟨word, hmem, (hiff word).2 hstuff⟩)

/-- Witness for C7: the fuzzy scenario `"yu dime la hora"` with wake word
`"yui"` — the token `"yu"` has length 2 and is one edit away from `"yui"`. -/
theorem claim_C7_witness :
    wait_for_wake_word yuiSettings none none (some "yu dime la hora".toList) =
      ⟨true, some "yu dime la hora".toList⟩ :=
  (claim_C7_fuzzy_pass yuiSettings none none "yu dime la hora".toList
    (by decide) (by decide) (by decide) (by decide)).2 (by decide)

/-- The fuzzy-toggle claim is false as stated: the override value `" 0"` is
none of `"0"`, `"false"`, `"False"`, yet it disables the fuzzy pass, because
the code strips the value before comparing.  With wake word `"yui"` and the
near-miss transcript `"yu dime la hora"`, the override `" 0"` yields
`heard = false` where the claim demands the pass stay enabled (as the
enabled-toggle run, last conjunct, shows). -/
theorem claim_C8_counterexample :
    fuzzyEnabled (some " 0".toList) = false ∧
      " 0".toList ≠ "0".toList ∧ " 0".toList ≠ "false".toList ∧
      " 0".toList ≠ "False".toList ∧
      wait_for_wake_word yuiSettings none (some " 0".toList)
          (some "yu dime la hora".toList) =
        ⟨false, some "yu dime la hora".toList⟩ ∧
      wait_for_wake_word yuiSettings none (some "1".toList)
          (some "yu dime la hora".toList) =
        ⟨true, some "yu dime la hora".toList⟩ := by
  exact ⟨by decide, by decide, by decide, by decide, by decide, by decide⟩

/-- **C8 (amended)**: the fuzzy pass is skipped iff the override value, with
surrounding whitespace stripped (and an absent or empty value replaced by
`"1"`), is `"0"`, `"false"` or `"False"`; behaviourally, on the near-miss
transcript `"yu dime la hora"` with wake word `"yui"`, the detector hears the
wake word exactly when the toggle is enabled. -/
theorem claim_C8_fuzzy_toggle_amended (v : Option (List Char)) :
    (fuzzyEnabled v = false ↔
      pyStrip (if (v.getD ('1' :: [])).isEmpty then '1' :: []
          else v.getD ('1' :: []))
        ∈ ["0".toList, "false".toList, "False".toList]) ∧
      wait_for_wake_word yuiSettings none v (some "yu dime la hora".toList) =
        ⟨fuzzyEnabled v, some "yu dime la hora".toList⟩ := by
  constructor
  · unfold fuzzyEnabled
    simp only [Bool.not_eq_false', Bool.or_eq_true, decide_eq_true_eq,
      List.mem_cons, List.mem_singleton, List.not_mem_nil, or_false]
    exact or_assoc
  · rw [wait_for_wake_word_eval yuiSettings none v "yu dime la hora".toList
      (by decide) (by decide)]
    have hno : (wake_candidates yuiSettings none).any
        (fun w => (pySplit (pyNormalize "yu dime la hora".toList)).contains w ||
          isSubstring w (pyNormalize "yu dime la hora".toList)) = false := by
      decide
    rw [hno, if_neg Bool.false_ne_true]
    have hfu : (pySplit (pyNormalize "yu dime la hora".toList)).any (fun word =>
        if word.length < 2 || word.length > 6 then false
        else (wake_candidates yuiSettings none).any fun cand =>
          edit_distance_le1 word cand) = true := by
      decide
    by_cases hf : fuzzyEnabled v = true
    · rw [hf, if_pos rfl, hfu, if_pos rfl]
    · rw [Bool.not_eq_true] at hf
      rw [hf, if_neg Bool.false_ne_true]

/-! ### Claim C1: the bounded matcher decides Levenshtein distance at most 1 -/

lemma levDist_nil_left (b : List Char) : levDist [] b = b.length := by
  cases b <;> simp [levDist]

lemma levDist_nil_right (a : List Char) : levDist a [] = a.length := by
  cases a <;> simp [levDist]

lemma levDist_cons_cons (x y : Char) (xs ys : List Char) :
    levDist (x :: xs) (y :: ys) =
      if x = y then levDist xs ys
      else 1 + min (levDist xs (y :: ys))
        (min (levDist (x :: xs) ys) (levDist xs ys)) := by
  rw [levDist]

lemma levDist_self (a : List Char) : levDist a a = 0 := by
  induction a with
  | nil => exact levDist_nil_left []
  | cons x xs ih => rw [levDist_cons_cons, if_pos rfl]; exact ih

lemma levDist_eq_zero : ∀ (a b : List Char), levDist a b = 0 ↔ a = b := by
  intro a
  induction a with
  | nil =>
    intro b
    rw [levDist_nil_left]
    rw [List.length_eq_zero]
    exact ⟨fun h => h.symm, fun h => h.symm⟩
  | cons x xs ih =>
    intro b
    cases b with
    | nil =>
      rw [levDist_nil_right]
      simp
    | cons y ys =>
      rw [levDist_cons_cons]
      by_cases h : x = y
      · rw [if_pos h, ih ys]
        subst h
        simp
      · rw [if_neg h]
        constructor
        · intro hc; omega
        · intro hc
          rw [List.cons.injEq] at hc
          exact absurd hc.1 h

lemma levDist_length : ∀ (a b : List Char),
    a.length - b.length ≤ levDist a b ∧ b.length - a.length ≤ levDist a b
  | [], b => by rw [levDist_nil_left]; simp only [List.length_nil]; omega
  | a :: as, [] => by rw [levDist_nil_right]; simp only [List.length_nil]; omega
  | x :: xs, y :: ys => by
    rw [levDist_cons_cons]
    by_cases h : x = y
    · rw [if_pos h]
      have := levDist_length xs ys
      simp only [List.length_cons]
      omega
    · rw [if_neg h]
      have h1 := levDist_length xs (y :: ys)
      have h2 := levDist_length (x :: xs) ys
      have h3 := levDist_length xs ys
      simp only [List.length_cons] at h1 h2 h3 ⊢
      omega
termination_by a b => a.length + b.length
decreasing_by all_goals (simp [List.length_cons]; try omega)

lemma levDist_comm : ∀ (a b : List Char), levDist a b = levDist b a
  | [], b => by rw [levDist_nil_left, levDist_nil_right]
  | a :: as, [] => by rw [levDist_nil_left, levDist_nil_right]
  | x :: xs, y :: ys => by
    rw [levDist_cons_cons, levDist_cons_cons]
    by_cases h : x = y
    · rw [if_pos h, if_pos h.symm]
      exact levDist_comm xs ys
    · rw [if_neg h, if_neg fun hc => h hc.symm]
      rw [levDist_comm xs (y :: ys), levDist_comm (x :: xs) ys,
        levDist_comm xs ys]
      omega
termination_by a b => a.length + b.length
decreasing_by all_goals (simp [List.length_cons]; try omega)

lemma countDiff_self : ∀ (a : List Char), countDiff a a = 0
  | [] => rfl
  | x :: xs => by rw [countDiff, if_pos rfl, countDiff_self xs]

lemma sameLenLe1_eq : ∀ (a b : List Char) (d : Nat), d ≤ 1 →
    (sameLenLe1 a b d = true ↔ d + countDiff a b ≤ 1) := by
  intro a
  induction a with
  | nil =>
    intro b d hd
    have h0 : countDiff [] b = 0 := rfl
    exact iff_of_true rfl (by omega)
  | cons x xs ih =>
    intro b d hd
    cases b with
    | nil =>
      have h0 : countDiff (x :: xs) [] = 0 := rfl
      exact iff_of_true rfl (by omega)
    | cons y ys =>
      rw [sameLenLe1, countDiff]
      by_cases h : x = y
      · rw [if_pos h, if_pos h, ih ys d hd]
        omega
      · rw [if_neg h, if_neg h]
        by_cases hd1 : d + 1 > 1
        · rw [if_pos hd1]
          exact iff_of_false Bool.false_ne_true (by omega)
        · rw [if_neg hd1, ih ys (d + 1) (by omega)]
          omega

lemma countDiff_eq_zero : ∀ (a b : List Char), a.length = b.length →
    (countDiff a b = 0 ↔ a = b) := by
  intro a
  induction a with
  | nil =>
    intro b hlen
    cases b with
    | nil => simp [countDiff]
    | cons y ys => simp at hlen
  | cons x xs ih =>
    intro b hlen
    cases b with
    | nil => simp at hlen
    | cons y ys =>
      rw [countDiff]
      by_cases h : x = y
      · rw [if_pos h, Nat.zero_add, ih ys (by simpa using hlen)]
        subst h
        simp
      · rw [if_neg h]
        constructor
        · intro hc; omega
        · intro hc
          rw [List.cons.injEq] at hc
          exact absurd hc.1 h

lemma countDiff_le_one_of_levDist (a b : List Char) : a.length = b.length →
    levDist a b ≤ 1 → countDiff a b ≤ 1 := by
  induction a generalizing b with
  | nil =>
    intro hlen _
    cases b with
    | nil => exact Nat.zero_le 1
    | cons y ys => simp at hlen
  | cons x xs ih =>
    intro hlen hle
    cases b with
    | nil => simp at hlen
    | cons y ys =>
      rw [levDist_cons_cons] at hle
      rw [countDiff]
      by_cases h : x = y
      · rw [if_pos h] at hle ⊢
        have := ih ys (by simpa using hlen) hle
        omega
      · rw [if_neg h] at hle ⊢
        have hmin : min (levDist xs (y :: ys))
            (min (levDist (x :: xs) ys) (levDist xs ys)) = 0 := by omega
        rcases Nat.min_eq_zero_iff.1 hmin with h1 | h1
        · have := (levDist_eq_zero xs (y :: ys)).1 h1
          apply_fun List.length at this
          simp at this hlen
          omega
        · rcases Nat.min_eq_zero_iff.1 h1 with h2 | h2
          · have := (levDist_eq_zero (x :: xs) ys).1 h2
            apply_fun List.length at this
            simp at this hlen
            omega
          · have := (levDist_eq_zero xs ys).1 h2
            rw [this, countDiff_self]

lemma levDist_le_countDiff : ∀ (a b : List Char), a.length = b.length →
    levDist a b ≤ countDiff a b := by
  intro a
  induction a with
  | nil =>
    intro b hlen
    cases b with
    | nil => rw [levDist_nil_left]; rfl
    | cons y ys => simp at hlen
  | cons x xs ih =>
    intro b hlen
    cases b with
    | nil => simp at hlen
    | cons y ys =>
      rw [levDist_cons_cons, countDiff]
      by_cases h : x = y
      · rw [if_pos h, if_pos h]
        have := ih ys (by simpa using hlen)
        omega
      · rw [if_neg h, if_neg h]
        have := ih ys (by simpa using hlen)
        have hm : min (levDist xs (y :: ys))
            (min (levDist (x :: xs) ys) (levDist xs ys)) ≤ levDist xs ys :=
          le_trans (Nat.min_le_right _ _) (Nat.min_le_right _ _)
        omega

lemma levDist_cons_self : ∀ (l : List Char) (a : Char),
    levDist l (a :: l) ≤ 1 := by
  intro l
  induction l with
  | nil => intro a; rw [levDist_nil_left]; rfl
  | cons x xs ih =>
    intro a
    rw [levDist_cons_cons]
    by_cases h : x = a
    · rw [if_pos h]
      subst h
      exact ih x
    · rw [if_neg h]
      have h0 : levDist (x :: xs) (x :: xs) = 0 := levDist_self _
      have hm : min (levDist xs (x :: xs))
          (min (levDist (x :: xs) (x :: xs)) (levDist xs (x :: xs))) ≤
            levDist (x :: xs) (x :: xs) :=
        le_trans (Nat.min_le_right _ _) (Nat.min_le_left _ _)
      omega

lemma levDist_le_one_of_sublist {a b : List Char} (h : a.Sublist b) :
    b.length = a.length + 1 → levDist a b ≤ 1 := by
  induction h with
  | slnil => intro hlen; simp at hlen
  | @cons l₁ l₂ x hsub ih =>
    intro hlen
    have hl : l₁ = l₂ := by
      refine List.Sublist.eq_of_length hsub ?_
      simp only [List.length_cons] at hlen
      omega
    subst hl
    exact levDist_cons_self l₁ x
  | @cons₂ l₁ l₂ x hsub ih =>
    intro hlen
    rw [levDist_cons_cons, if_pos rfl]
    refine ih ?_
    simp only [List.length_cons] at hlen
    omega

lemma sublist_of_levDist_le_one : ∀ (a b : List Char),
    b.length = a.length + 1 → levDist a b ≤ 1 → a.Sublist b
  | [], b, _, _ => List.nil_sublist b
  | x :: xs, [], hlen, _ => by simp at hlen
  | x :: xs, y :: ys, hlen, hle => by
    rw [levDist_cons_cons] at hle
    by_cases h : x = y
    · subst h
      rw [if_pos rfl] at hle
      refine List.cons_sublist_cons.2 (sublist_of_levDist_le_one xs ys ?_ hle)
      simp only [List.length_cons] at hlen
      omega
    · rw [if_neg h] at hle
      have hmin : min (levDist xs (y :: ys))
          (min (levDist (x :: xs) ys) (levDist xs ys)) = 0 := by omega
      rcases Nat.min_eq_zero_iff.1 hmin with h1 | h1
      · exfalso
        have := (levDist_eq_zero xs (y :: ys)).1 h1
        apply_fun List.length at this
        simp at this hlen
        omega
      · rcases Nat.min_eq_zero_iff.1 h1 with h2 | h2
        · have := (levDist_eq_zero (x :: xs) ys).1 h2
          rw [this]
          exact List.sublist_cons_self y ys
        · exfalso
          have := (levDist_eq_zero xs ys).1 h2
          apply_fun List.length at this
          simp at this hlen
          omega

lemma walkLe1_one_iff : ∀ (a b : List Char),
    walkLe1 a b 1 = true ↔ a <+: b ∨ b <+: a := by
  intro a
  induction a with
  | nil =>
    intro b
    have hw : walkLe1 [] b 1 = true := by cases b <;> rfl
    exact iff_of_true hw (Or.inl List.nil_prefix)
  | cons x xs ih =>
    intro b
    cases b with
    | nil =>
      exact iff_of_true rfl (Or.inr List.nil_prefix)
    | cons y ys =>
      rw [walkLe1]
      by_cases h : x = y
      · rw [if_pos h, ih ys]
        subst h
        rw [List.cons_prefix_cons, List.cons_prefix_cons]
        constructor
        · rintro (hp | hp)
          · exact Or.inl ⟨rfl, hp⟩
          · exact Or.inr ⟨rfl, hp⟩
        · rintro (⟨-, hp⟩ | ⟨-, hp⟩)
          · exact Or.inl hp
          · exact Or.inr hp
      · rw [if_neg h, if_pos (by omega)]
        refine iff_of_false Bool.false_ne_true ?_
        rintro (hp | hp)
        · rw [List.cons_prefix_cons] at hp
          exact h hp.1
        · rw [List.cons_prefix_cons] at hp
          exact h hp.1.symm

lemma walkLe1_zero_iff : ∀ (a b : List Char), b.length = a.length + 1 →
    (walkLe1 a b 0 = true ↔ a.Sublist b)
  | [], b, _ => by
    have hw : walkLe1 [] b 0 = true := by cases b <;> rfl
    exact iff_of_true hw (List.nil_sublist b)
  | x :: xs, [], hlen => by simp at hlen
  | x :: xs, y :: ys, hlen => by
    rw [walkLe1]
    by_cases h : x = y
    · rw [if_pos h]
      subst h
      rw [walkLe1_zero_iff xs ys (by simpa using hlen), List.cons_sublist_cons]
    · rw [if_neg h, if_neg (by omega), walkLe1_one_iff (x :: xs) ys]
      have hlback : ys.length = xs.length + 1 := by simpa using hlen
      constructor
      · rintro (hp | hp)
        · have hxy : x :: xs = ys := by
            refine List.IsPrefix.eq_of_length hp ?_
            simp [hlback]
          rw [hxy]
          exact List.sublist_cons_self y ys
        · have hxy : ys = x :: xs := by
            refine List.IsPrefix.eq_of_length hp ?_
            simp [hlback]
          rw [← hxy]
          exact List.sublist_cons_self y ys
      · intro hsub
        cases hsub with
        | cons _ hrest =>
          have hxy : x :: xs = ys := by
            refine List.Sublist.eq_of_length hrest ?_
            simp [hlback]
          exact Or.inl (hxy ▸ List.prefix_refl ys)
        | cons₂ hrest => exact absurd rfl h

/-- **C1**: the fuzzy matcher accepts exactly the pairs whose Levenshtein edit
distance is 0 or 1.  (The spec flags the two-pointer walk as a possible
under-approximation; in fact, for strings whose lengths differ by exactly
one, a single skip in the longer string is precisely a single
insertion/deletion, so the matcher is exact.) -/
theorem claim_C1_edit_distance (a b : List Char) :
    edit_distance_le1 a b = true ↔ levDist a b ≤ 1 := by
  unfold edit_distance_le1
  by_cases heq : a = b
  · rw [if_pos heq]
    subst heq
    exact iff_of_true rfl (by rw [levDist_self]; omega)
  · rw [if_neg heq]
    by_cases habs : (if a.length ≥ b.length then a.length - b.length
        else b.length - a.length) > 1
    · rw [if_pos habs]
      refine iff_of_false Bool.false_ne_true fun hle => ?_
      have h1 := levDist_length a b
      by_cases hge : a.length ≥ b.length
      · rw [if_pos hge] at habs; omega
      · rw [if_neg hge] at habs; omega
    · rw [if_neg habs]
      by_cases hlen : a.length = b.length
      · rw [if_pos hlen, sameLenLe1_eq a b 0 (by omega)]
        constructor
        · intro h
          have := levDist_le_countDiff a b hlen
          omega
        · intro h
          have := countDiff_le_one_of_levDist a b hlen h
          omega
      · rw [if_neg hlen]
        by_cases hgt : a.length > b.length
        · rw [if_pos hgt]
          have hlen1 : a.length = b.length + 1 := by
            by_cases hge : a.length ≥ b.length
            · rw [if_pos hge] at habs; omega
            · omega
          rw [walkLe1_zero_iff b a hlen1, levDist_comm a b]
          exact ⟨fun h => levDist_le_one_of_sublist h hlen1,
            fun h => sublist_of_levDist_le_one b a hlen1 h⟩
        · rw [if_neg hgt]
          have hlen1 : b.length = a.length + 1 := by
            by_cases hge : a.length ≥ b.length
            · omega
            · rw [if_neg hge] at habs; omega
          rw [walkLe1_zero_iff a b hlen1]
          exact ⟨fun h => levDist_le_one_of_sublist h hlen1,
            fun h => sublist_of_levDist_le_one a b hlen1 h⟩

/-- Witness for C1, exercising both directions of the characterization on the
fuzzy scenario pair and on a substitution-with-shift pair. -/
theorem claim_C1_witness :
    levDist "yu".toList "yui".toList ≤ 1 ∧
      ¬levDist "ba".toList "abc".toList ≤ 1 :=
  ⟨(claim_C1_edit_distance "yu".toList "yui".toList).1 (by decide),
    fun h => absurd ((claim_C1_edit_distance "ba".toList "abc".toList).2 h)
      (by decide)⟩

/-! ### Claims C2 and C10: the stripper -/

lemma matchRest_shape (w l : List Char) :
    ∃ l2 : List Char, l2 <:+ l.drop w.length ∧
      (matchRest w l).2 = l2.dropWhile isWS := by
  by_cases hp : (match (l.drop w.length).head? with
      | some c => isPunct c
      | none => false) = true
  · refine ⟨(l.drop w.length).tail, List.tail_suffix _, ?_⟩
    show (if (match (l.drop w.length).head? with
        | some c => isPunct c
        | none => false) = true
      then (l.drop w.length).tail else l.drop w.length).dropWhile isWS = _
    rw [if_pos hp]
  · refine ⟨l.drop w.length, List.suffix_refl _, ?_⟩
    show (if (match (l.drop w.length).head? with
        | some c => isPunct c
        | none => false) = true
      then (l.drop w.length).tail else l.drop w.length).dropWhile isWS = _
    rw [if_neg hp]

lemma matchRest_props (w l : List Char) :
    (matchRest w l).2 <:+ l ∧ (matchRest w l).2.length ≤ l.length - w.length ∧
      headOk (matchRest w l).2 = true := by
  obtain ⟨l2, hsuf, heq⟩ := matchRest_shape w l
  rw [heq]
  refine ⟨?_, ?_, headOk_dropWhile l2⟩
  · exact ((List.dropWhile_suffix isWS).trans hsuf).trans (List.drop_suffix _ l)
  · have h1 : (l2.dropWhile isWS).length ≤ l2.length :=
      (List.dropWhile_suffix isWS).sublist.length_le
    have h2 : l2.length ≤ (l.drop w.length).length := hsuf.sublist.length_le
    rw [List.length_drop] at h2
    omega

lemma matchOne_facts {p : Bool} {w l : List Char} (h : matchOne p w l = true) :
    w ≠ [] ∧ w.length ≤ l.length := by
  unfold matchOne at h
  rw [Bool.and_eq_true, Bool.and_eq_true, Bool.and_eq_true] at h
  obtain ⟨⟨⟨h1, h2⟩, -⟩, -⟩ := h
  constructor
  · simpa [List.isEmpty_iff] using h1
  · exact List.IsPrefix.length_le (List.isPrefixOf_iff_prefix.1 h2)

lemma firstMatch_some : ∀ {cands : List (List Char)} {p p' : Bool}
    {l rest : List Char}, firstMatch cands p l = some (p', rest) →
    rest <:+ l ∧ rest.length < l.length ∧ headOk rest = true := by
  intro cands
  induction cands with
  | nil => intro p p' l rest h; simp [firstMatch] at h
  | cons w ws ih =>
    intro p p' l rest h
    rw [firstMatch] at h
    by_cases hm : matchOne p w l = true
    · rw [if_pos hm] at h
      obtain ⟨hne, hwl⟩ := matchOne_facts hm
      obtain ⟨hsuf, hlen, hhead⟩ := matchRest_props w l
      have hr : (matchRest w l).2 = rest :=
        congrArg Prod.snd (Option.some.inj h)
      rw [hr] at hsuf hlen hhead
      have hw1 : 1 ≤ w.length := List.length_pos.2 hne
      exact ⟨hsuf, by omega, hhead⟩
    · rw [if_neg hm] at h
      exact ih h

lemma subScanFuel_nil (cands : List (List Char)) (f : Nat) (p : Bool) :
    subScanFuel cands f p [] = [] := by cases f <;> rfl

lemma subScanFuel_congr (cands : List (List Char)) :
    ∀ (f g : Nat) (p : Bool) (l : List Char), l.length ≤ f → l.length ≤ g →
      subScanFuel cands f p l = subScanFuel cands g p l := by
  intro f
  induction f with
  | zero =>
    intro g p l hf hg
    have hl : l = [] := by
      cases l with
      | nil => rfl
      | cons c cs => simp at hf
    subst hl
    rw [subScanFuel_nil, subScanFuel_nil]
  | succ f ih =>
    intro g p l hf hg
    cases l with
    | nil => rw [subScanFuel_nil, subScanFuel_nil]
    | cons c cs =>
      cases g with
      | zero => simp at hg
      | succ g =>
        rw [subScanFuel, subScanFuel]
        cases hfm : firstMatch cands p (c :: cs) with
        | some pr =>
          obtain ⟨p', rest⟩ := pr
          obtain ⟨-, hlt, -⟩ := firstMatch_some hfm
          simp only [List.length_cons] at hf hg hlt
          exact ih g p' rest (by omega) (by omega)
        | none =>
          simp only [List.length_cons] at hf hg
          show c :: subScanFuel cands f (isWordChar c) cs =
            c :: subScanFuel cands g (isWordChar c) cs
          rw [ih g (isWordChar c) cs (by omega) (by omega)]

lemma subScanFuel_sublist (cands : List (List Char)) :
    ∀ (f : Nat) (p : Bool) (l : List Char), (subScanFuel cands f p l).Sublist l := by
  intro f
  induction f with
  | zero => intro p l; exact List.Sublist.refl l
  | succ f ih =>
    intro p l
    cases l with
    | nil => rw [subScanFuel_nil]
    | cons c cs =>
      rw [subScanFuel]
      cases hfm : firstMatch cands p (c :: cs) with
      | some pr =>
        obtain ⟨p', rest⟩ := pr
        obtain ⟨hsuf, -, -⟩ := firstMatch_some hfm
        exact (ih p' rest).trans hsuf.sublist
      | none =>
        exact List.cons_sublist_cons.2 (ih (isWordChar c) cs)

lemma subScanFuel_inv (cands : List (List Char)) :
    ∀ (f : Nat) (p : Bool) (l : List Char), l.length ≤ f → NoAdjWS l →
      NoAdjWS (subScanFuel cands f p l) ∧
        (headOk l = true → headOk (subScanFuel cands f p l) = true) := by
  intro f
  induction f with
  | zero =>
    intro p l hf hadj
    have hl : l = [] := by
      cases l with
      | nil => rfl
      | cons c cs => simp at hf
    subst hl
    exact ⟨hadj, fun h => h⟩
  | succ f ih =>
    intro p l hf hadj
    cases l with
    | nil =>
      rw [subScanFuel_nil]
      exact ⟨hadj, fun h => h⟩
    | cons c cs =>
      rw [subScanFuel]
      cases hfm : firstMatch cands p (c :: cs) with
      | some pr =>
        obtain ⟨p', rest⟩ := pr
        obtain ⟨hsuf, hlt, hh⟩ := firstMatch_some hfm
        have hadj' : NoAdjWS rest := List.Chain'.suffix hadj hsuf
        simp only [List.length_cons] at hf hlt
        obtain ⟨h1, h2⟩ := ih p' rest (by omega) hadj'
        exact ⟨h1, fun _ => h2 hh⟩
      | none =>
        have hadj' : NoAdjWS cs := List.Chain'.tail hadj
        simp only [List.length_cons] at hf
        obtain ⟨h1, h2⟩ := ih (isWordChar c) cs (by omega) hadj'
        constructor
        · unfold NoAdjWS at h1 ⊢
          rw [List.chain'_cons']
          refine ⟨?_, h1⟩
          intro y hy
          rintro ⟨hwc, hwy⟩
          cases cs with
          | nil =>
            rw [subScanFuel_nil] at hy
            simp at hy
          | cons d ds =>
            have hd : isWS d = false := by
              unfold NoAdjWS at hadj
              rw [List.chain'_cons] at hadj
              by_cases hdd : isWS d = true
              · exact absurd ⟨hwc, hdd⟩ hadj.1
              · simpa using hdd
            have hhead : headOk (d :: ds) = true := by simp [headOk, hd]
            have hout := h2 hhead
            cases ho : subScanFuel cands f (isWordChar c) (d :: ds) with
            | nil => rw [ho] at hy; simp at hy
            | cons e es =>
              rw [ho] at hy hout
              simp only [List.head?_cons, Option.mem_def, Option.some.injEq] at hy
              subst hy
              simp only [headOk, List.head?_cons, Bool.not_eq_true'] at hout
              rw [hout] at hwy
              exact Bool.false_ne_true hwy
        · intro hhl
          simp only [headOk, List.head?_cons] at hhl ⊢
          exact hhl

lemma charsOk_of_subset {l m : List Char} (h : ∀ c ∈ l, c ∈ m)
    (hm : charsOk m = true) : charsOk l = true := by
  unfold charsOk at hm ⊢
  rw [List.all_eq_true] at hm ⊢
  exact fun c hc => hm c (h c hc)

lemma normalized_of_parts {m : List Char} (hchars : charsOk m = true)
    (hadj : NoAdjWS m) : Normalized (pyStrip m) := by
  refine ⟨?_, ?_, pyStrip_headOk m, pyStrip_lastOk m⟩
  · exact charsOk_of_subset
      (fun c hc => (List.IsInfix.sublist (pyStrip_isInfix m)).subset hc) hchars
  · exact List.Chain'.infix hadj (pyStrip_isInfix m)

/-- **C10**: the string returned by `strip_wake_word` is already in normal
form — normalizing it again changes nothing (no surrounding whitespace, all
lowercase, no run of more than one interior space). -/
theorem claim_C10_strip_normalized (s : Settings)
    (envAliases : Option (List Char)) (text : List Char) :
    pyNormalize (strip_wake_word s envAliases text) =
      strip_wake_word s envAliases text := by
  unfold strip_wake_word
  by_cases hc : (wake_candidates s envAliases).isEmpty = true
  · simp only [if_pos hc]
    exact pyNormalize_idem text
  · simp only [if_neg hc]
    obtain ⟨htc, hta, -, -⟩ := pyNormalize_normalized text
    have hsub := subScanFuel_sublist (sortByLenDesc (wake_candidates s envAliases))
      (pyNormalize text).length false (pyNormalize text)
    have hinv := subScanFuel_inv (sortByLenDesc (wake_candidates s envAliases))
      (pyNormalize text).length false (pyNormalize text) le_rfl hta
    exact normalized_fixed (normalized_of_parts
      (charsOk_of_subset (fun c hcm => hsub.subset hcm) htc) hinv.1)

/-- The stripping claim is false as stated: on `"yui yui hola"` the code
removes BOTH whole-word occurrences of `"yui"` (the regex substitution
replaces every non-overlapping match), returning `"hola"`, while removing
only the first occurrence — `strip_wake_word_spec`, the spec's wording —
would return `"yui hola"`. -/
theorem claim_C2_counterexample :
    strip_wake_word yuiSettings none "yui yui hola".toList = "hola".toList ∧
      strip_wake_word_spec yuiSettings none "yui yui hola".toList =
        "yui hola".toList ∧
      strip_wake_word yuiSettings none "yui yui hola".toList ≠
        strip_wake_word_spec yuiSettings none "yui yui hola".toList :=
  ⟨by decide, by decide, by decide⟩

lemma repeatedWake_headOk (n : Nat) : headOk (repeatedWake n) = true := by
  cases n with
  | zero => rfl
  | succ n => rfl

lemma repeatedWake_head? (n : Nat) :
    (repeatedWake n).head? = some 'y' ∨ (repeatedWake n).head? = some 'd' := by
  cases n with
  | zero => exact Or.inr rfl
  | succ n => exact Or.inl rfl

lemma repeatedWake_ne_nil (n : Nat) : repeatedWake n ≠ [] := by
  cases n with
  | zero => decide
  | succ n =>
    show ('y' :: 'u' :: 'i' :: ' ' :: repeatedWake n) ≠ []
    simp

lemma lastOk_append (xs l : List Char) (hne : l ≠ []) :
    lastOk (xs ++ l) = lastOk l := by
  unfold lastOk
  rw [List.getLast?_append]
  cases hg : l.getLast? with
  | none => exact absurd (List.getLast?_eq_none_iff.1 hg) hne
  | some a => rfl

lemma repeatedWake_normalized (n : Nat) : Normalized (repeatedWake n) := by
  induction n with
  | zero => decide
  | succ n ih =>
    obtain ⟨hc, ha, -, hl⟩ := ih
    have hcons : repeatedWake (n + 1) =
        'y' :: 'u' :: 'i' :: ' ' :: repeatedWake n := rfl
    refine ⟨?_, ?_, repeatedWake_headOk (n + 1), ?_⟩
    · unfold charsOk at hc ⊢
      rw [show repeatedWake (n + 1) = "yui ".toList ++ repeatedWake n from rfl]
      rw [List.all_append, hc, Bool.and_true]
      decide
    · unfold NoAdjWS at ha ⊢
      rw [hcons, List.chain'_cons, List.chain'_cons, List.chain'_cons,
        List.chain'_cons']
      refine ⟨by decide, by decide, by decide, ?_, ha⟩
      intro y hy
      rintro ⟨-, hwy⟩
      rcases repeatedWake_head? n with hh | hh <;>
        rw [hh] at hy <;> simp at hy <;> subst hy <;> simp [isWS] at hwy
    · have : repeatedWake (n + 1) = "yui ".toList ++ repeatedWake n := rfl
      rw [this, lastOk_append _ _ (repeatedWake_ne_nil n)]
      exact hl

lemma matchRest_yui (l : List Char) (hh : headOk l = true) :
    matchRest "yui".toList ('y' :: 'u' :: 'i' :: ' ' :: l) = (false, l) := by
  have hdw : List.dropWhile isWS l = l := stripLeft_of_headOk hh
  have hshape : matchRest "yui".toList ('y' :: 'u' :: 'i' :: ' ' :: l) =
      (if (List.dropWhile isWS l).length = l.length + 1 then true else false,
        List.dropWhile isWS l) := rfl
  rw [hshape, hdw, if_neg (by omega)]

lemma firstMatch_yui (l : List Char) (hh : headOk l = true) :
    firstMatch ["yui".toList] false ('y' :: 'u' :: 'i' :: ' ' :: l) =
      some (false, l) := by
  rw [firstMatch,
    if_pos (show matchOne false "yui".toList ('y' :: 'u' :: 'i' :: ' ' :: l)
      = true from rfl)]
  rw [matchRest_yui l hh]

lemma subScan_repeatedWake : ∀ (n f : Nat), (repeatedWake n).length ≤ f →
    subScanFuel ["yui".toList] f false (repeatedWake n) =
      "dime la hora".toList := by
  intro n
  induction n with
  | zero =>
    intro f hf
    rw [subScanFuel_congr _ f 12 false (repeatedWake 0) hf (by decide)]
    decide
  | succ n ih =>
    intro f hf
    have hlen : (repeatedWake (n + 1)).length = (repeatedWake n).length + 4 := by
      show (("yui ".toList) ++ repeatedWake n).length = _
      rw [List.length_append]
      rw [show ("yui ".toList).length = 4 from rfl]
      omega
    cases f with
    | zero =>
      rw [hlen] at hf
      omega
    | succ f =>
      have hstep : subScanFuel ["yui".toList] (f + 1) false (repeatedWake (n + 1)) =
          subScanFuel ["yui".toList] f false (repeatedWake n) := by
        show subScanFuel ["yui".toList] (f + 1) false
          ('y' :: 'u' :: 'i' :: ' ' :: repeatedWake n) = _
        rw [subScanFuel, firstMatch_yui _ (repeatedWake_headOk n)]
      rw [hstep]
      apply ih
      rw [hlen] at hf
      omega

lemma strip_repeatedWake (n : Nat) :
    strip_wake_word yuiSettings none (repeatedWake n) =
      "dime la hora".toList := by
  unfold strip_wake_word
  rw [if_neg (show ¬(wake_candidates yuiSettings none).isEmpty = true by decide)]
  rw [normalized_fixed (repeatedWake_normalized n)]
  rw [show sortByLenDesc (wake_candidates yuiSettings none) = ["yui".toList]
    from by decide]
  show pyStrip (subScanFuel ["yui".toList] (repeatedWake n).length false
    (repeatedWake n)) = _
  rw [subScan_repeatedWake n _ le_rfl]
  decide

/-! #### No whole-word occurrence survives the substitution -/

lemma isWS_not_wordChar {c : Char} (h : isWS c = true) : isWordChar c = false := by
  unfold isWS at h
  rw [decide_eq_true_eq] at h
  rcases h with h | h | h | h | h | h
  · rw [show c = Char.ofNat 32 from char_toNat_injective (h.trans (by decide))]
    decide
  · rw [show c = Char.ofNat 9 from char_toNat_injective (h.trans (by decide))]
    decide
  · rw [show c = Char.ofNat 10 from char_toNat_injective (h.trans (by decide))]
    decide
  · rw [show c = Char.ofNat 13 from char_toNat_injective (h.trans (by decide))]
    decide
  · rw [show c = Char.ofNat 11 from char_toNat_injective (h.trans (by decide))]
    decide
  · rw [show c = Char.ofNat 12 from char_toNat_injective (h.trans (by decide))]
    decide

lemma matchOne_parts {p : Bool} {w l : List Char} (h : matchOne p w l = true) :
    w.isEmpty = false ∧ w.isPrefixOf l = true ∧ (p != wordAt w.head?) = true ∧
      (wordAt w.getLast? != wordAt (l.drop w.length).head?) = true := by
  unfold matchOne at h
  rw [Bool.and_eq_true, Bool.and_eq_true, Bool.and_eq_true] at h
  exact ⟨by simpa using h.1.1.1, h.1.1.2, h.1.2, h.2⟩

lemma matchOne_intro {p : Bool} {w l : List Char} (h1 : w.isEmpty = false)
    (h2 : w.isPrefixOf l = true) (h3 : (p != wordAt w.head?) = true)
    (h4 : (wordAt w.getLast? != wordAt (l.drop w.length).head?) = true) :
    matchOne p w l = true := by
  unfold matchOne
  rw [h1, h2, h3, h4]
  rfl

lemma matchRest_def (w l : List Char) :
    matchRest w l =
      (if ((if punctAt (l.drop w.length) then (l.drop w.length).tail
            else l.drop w.length).dropWhile isWS).length =
          (if punctAt (l.drop w.length) then (l.drop w.length).tail
            else l.drop w.length).length
        then (if punctAt (l.drop w.length) then false else wordAt w.getLast?)
        else false,
       (if punctAt (l.drop w.length) then (l.drop w.length).tail
        else l.drop w.length).dropWhile isWS) := rfl

lemma matchRest_fst_true {w l rest : List Char}
    (h : matchRest w l = (true, rest)) :
    wordAt w.getLast? = true ∧ rest = l.drop w.length := by
  rw [matchRest_def, Prod.mk.injEq] at h
  obtain ⟨h1, h2⟩ := h
  cases hp : punctAt (l.drop w.length) with
  | true =>
    rw [hp] at h1
    simp at h1
  | false =>
    rw [hp] at h1 h2
    simp only [Bool.false_eq_true, if_false] at h1
    try simp only [Bool.false_eq_true, if_false] at h2
    by_cases hl : ((l.drop w.length).dropWhile isWS).length =
        (l.drop w.length).length
    · rw [if_pos hl] at h1
      refine ⟨h1, ?_⟩
      rw [← h2]
      exact (List.dropWhile_suffix isWS).sublist.eq_of_length hl
    · rw [if_neg hl] at h1
      exact absurd h1 Bool.false_ne_true

lemma firstMatch_isSome_of_matchOne : ∀ {C : List (List Char)} {p : Bool}
    {l w : List Char}, w ∈ C → matchOne p w l = true →
    firstMatch C p l ≠ none := by
  intro C
  induction C with
  | nil => intro p l w hw _; simp at hw
  | cons w' ws ih =>
    intro p l w hw hm
    rw [firstMatch]
    by_cases hm' : matchOne p w' l = true
    · rw [if_pos hm']; simp
    · rw [if_neg hm']
      rcases List.mem_cons.1 hw with h | h
      · subst h; exact absurd hm hm'
      · exact ih h hm

lemma matchOne_ctxTrue_of_word {w l : List Char}
    (hw : ∀ c ∈ w, isWordChar c = true) : matchOne true w l = false := by
  cases w with
  | nil => rfl
  | cons a as =>
    have ha : isWordChar a = true := hw a (List.mem_cons_self _ _)
    unfold matchOne
    rw [show wordAt (a :: as).head? = isWordChar a from rfl, ha]
    simp

lemma firstMatch_ctxTrue_none {C : List (List Char)}
    (hC : ∀ w ∈ C, ∀ c ∈ w, isWordChar c = true) (l : List Char) :
    firstMatch C true l = none := by
  induction C with
  | nil => rfl
  | cons w ws ih =>
    rw [firstMatch]
    rw [if_neg (by
      rw [matchOne_ctxTrue_of_word (hC w (List.mem_cons_self _ _))]
      simp)]
    exact ih fun w' hw' => hC w' (List.mem_cons_of_mem _ hw')

lemma firstMatch_true_head : ∀ {C : List (List Char)} {p : Bool}
    {l rest : List Char}, firstMatch C p l = some (true, rest) →
    wordAt rest.head? = false := by
  intro C
  induction C with
  | nil => intro p l rest h; simp [firstMatch] at h
  | cons w ws ih =>
    intro p l rest h
    rw [firstMatch] at h
    by_cases hm : matchOne p w l = true
    · rw [if_pos hm] at h
      obtain ⟨hlast, hrest⟩ := matchRest_fst_true (Option.some.inj h)
      obtain ⟨-, -, -, h4⟩ := matchOne_parts hm
      rw [hlast] at h4
      rw [hrest]
      cases hx : wordAt (l.drop w.length).head? with
      | false => rfl
      | true => rw [hx] at h4; exact absurd h4 (by decide)
    · rw [if_neg hm] at h
      exact ih h

lemma insertByLen_mem {a x : List Char} : ∀ {l : List (List Char)},
    (a ∈ insertByLen x l ↔ a = x ∨ a ∈ l) := by
  intro l
  induction l with
  | nil => simp [insertByLen]
  | cons y ys ih =>
    rw [insertByLen]
    by_cases hl : y.length < x.length
    · rw [if_pos hl]
      simp
    · rw [if_neg hl]
      rw [List.mem_cons, ih, List.mem_cons]
      tauto

lemma sortByLenDesc_mem {a : List Char} {l : List (List Char)} :
    a ∈ sortByLenDesc l ↔ a ∈ l := by
  have hgen : ∀ (l acc : List (List Char)),
      (a ∈ List.foldl (fun acc x => insertByLen x acc) acc l ↔
        a ∈ acc ∨ a ∈ l) := by
    intro l
    induction l with
    | nil => intro acc; simp
    | cons x xs ih =>
      intro acc
      rw [List.foldl_cons, ih, insertByLen_mem, List.mem_cons]
      tauto
  unfold sortByLenDesc
  rw [hgen l []]
  simp

lemma subScanFuel_cons_none {C : List (List Char)} {p : Bool} {c : Char}
    {cs : List Char} {f : Nat} (h : firstMatch C p (c :: cs) = none) :
    subScanFuel C (f + 1) p (c :: cs) =
      c :: subScanFuel C f (isWordChar c) cs := by
  rw [subScanFuel, h]

lemma subScanFuel_cons_some {C : List (List Char)} {p p' : Bool} {c : Char}
    {cs rest : List Char} {f : Nat}
    (h : firstMatch C p (c :: cs) = some (p', rest)) :
    subScanFuel C (f + 1) p (c :: cs) = subScanFuel C f p' rest := by
  rw [subScanFuel, h]

/-- While the scanner sits just after a word character, it copies the input
verbatim (no alternative can match, since every candidate starts with a word
character): a word-character run at the start of the output is a prefix of
the input, and the input character right after the run is not a word
character. -/
lemma subScan_wordRun (C : List (List Char))
    (hC : ∀ w ∈ C, ∀ c ∈ w, isWordChar c = true) :
    ∀ (w' : List Char) (f : Nat) (m v : List Char), m.length ≤ f →
      (∀ c ∈ w', isWordChar c = true) →
      subScanFuel C f true m = w' ++ v →
      (∀ c, v.head? = some c → isWordChar c = false) →
      w' <+: m ∧ ∀ c, (m.drop w'.length).head? = some c → isWordChar c = false := by
  intro w'
  induction w' with
  | nil =>
    intro f m v hf _ hout hv
    refine ⟨List.nil_prefix, ?_⟩
    rw [List.length_nil, List.drop_zero]
    intro c hc
    cases m with
    | nil => simp at hc
    | cons d ds =>
      cases f with
      | zero => simp at hf
      | succ f =>
        rw [subScanFuel_cons_none (firstMatch_ctxTrue_none hC (d :: ds)),
          List.nil_append] at hout
        have hvd : v.head? = some d := by rw [← hout]; rfl
        rw [List.head?_cons, Option.some.injEq] at hc
        rw [← hc]
        exact hv d hvd
  | cons e w'' ih =>
    intro f m v hf hw' hout hv
    cases m with
    | nil =>
      rw [subScanFuel_nil] at hout
      exact absurd hout (by simp)
    | cons d ds =>
      cases f with
      | zero => simp at hf
      | succ f =>
        rw [subScanFuel_cons_none (firstMatch_ctxTrue_none hC (d :: ds)),
          List.cons_append] at hout
        injection hout with he1 he2
        subst he1
        have hde : isWordChar d = true := hw' d (List.mem_cons_self _ _)
        rw [hde] at he2
        obtain ⟨hpre, hafter⟩ := ih f ds v
          (by simp only [List.length_cons] at hf; omega)
          (fun x hx => hw' x (List.mem_cons_of_mem _ hx)) he2 hv
        constructor
        · exact List.cons_prefix_cons.2 ⟨rfl, hpre⟩
        · rw [List.length_cons, List.drop_succ_cons]
          exact hafter

/-- Core invariant: the substitution scan leaves no whole-word occurrence of
any (word-character) candidate in its output.  The context flag `p`
simultaneously tracks the word-character status of the character before the
remaining input (for `\b`) and of the character before the output produced so
far (kept characters coincide with input characters, and every removal is
preceded by a non-word character or follows consumed whitespace). -/
lemma subScan_no_ctxOcc (C : List (List Char))
    (hC : ∀ w ∈ C, ∀ c ∈ w, isWordChar c = true) :
    ∀ (f : Nat) (p : Bool) (l : List Char), l.length ≤ f →
      ∀ w ∈ C, w ≠ [] → ¬ CtxWholeWord p w (subScanFuel C f p l) := by
  intro f
  induction f with
  | zero =>
    intro p l hf w hw hne hocc
    have hl : l = [] := by
      cases l with
      | nil => rfl
      | cons c cs => simp at hf
    subst hl
    obtain ⟨u, v, heq, -, -, -⟩ := hocc
    rw [subScanFuel_nil, eq_comm, List.append_eq_nil, List.append_eq_nil] at heq
    exact hne heq.1.2
  | succ f ih =>
    intro p l hf w hw hne hocc
    cases l with
    | nil =>
      obtain ⟨u, v, heq, -, -, -⟩ := hocc
      rw [subScanFuel_nil, eq_comm, List.append_eq_nil, List.append_eq_nil] at heq
      exact hne heq.1.2
    | cons c cs =>
      cases hfm : firstMatch C p (c :: cs) with
      | none =>
        rw [subScanFuel_cons_none hfm] at hocc
        obtain ⟨u, v, heq, hup, hul, hvr⟩ := hocc
        cases u with
        | nil =>
          rw [List.nil_append] at heq
          have hp : p = false := hup rfl
          cases w with
          | nil => exact hne rfl
          | cons c₀ w₁ =>
            rw [List.cons_append] at heq
            injection heq with he1 he2
            subst he1
            have hcw : isWordChar c = true := hC _ hw c (List.mem_cons_self _ _)
            rw [hcw] at he2
            obtain ⟨hpre, hafter⟩ := subScan_wordRun C hC w₁ f cs v
              (by simp only [List.length_cons] at hf; omega)
              (fun x hx => hC _ hw x (List.mem_cons_of_mem _ hx)) he2 hvr
            have hmo : matchOne p (c :: w₁) (c :: cs) = true := by
              refine matchOne_intro rfl ?_ ?_ ?_
              · exact List.isPrefixOf_iff_prefix.2
                  (List.cons_prefix_cons.2 ⟨rfl, hpre⟩)
              · rw [hp, show wordAt (c :: w₁).head? = isWordChar c from rfl, hcw]
                rfl
              · have hlast : wordAt (c :: w₁).getLast? = true := by
                  cases hg : (c :: w₁).getLast? with
                  | none =>
                    rw [List.getLast?_eq_none_iff] at hg
                    simp at hg
                  | some a =>
                    have ham : a ∈ c :: w₁ :=
                      List.mem_of_mem_getLast? (Option.mem_def.2 hg)
                    show isWordChar a = true
                    exact hC _ hw a ham
                rw [hlast,
                  show (c :: cs).drop (c :: w₁).length = cs.drop w₁.length from by
                    rw [List.length_cons, List.drop_succ_cons]]
                cases hg : (cs.drop w₁.length).head? with
                | none => rfl
                | some a =>
                  rw [show wordAt (some a) = isWordChar a from rfl, hafter a hg]
                  rfl
            exact firstMatch_isSome_of_matchOne hw hmo hfm
        | cons c' u' =>
          rw [List.cons_append, List.cons_append] at heq
          injection heq with he1 he2
          subst he1
          refine ih (isWordChar c) cs
            (by simp only [List.length_cons] at hf; omega) w hw hne
            ⟨u', v, he2, ?_, ?_, hvr⟩
          · intro hu'
            subst hu'
            exact hul c rfl
          · intro x hx
            apply hul
            cases u' with
            | nil => simp at hx
            | cons y ys =>
              rw [List.getLast?_cons_cons]
              exact hx
      | some pr =>
        obtain ⟨p', rest⟩ := pr
        rw [subScanFuel_cons_some hfm] at hocc
        obtain ⟨-, hlt, -⟩ := firstMatch_some hfm
        have hrf : rest.length ≤ f := by
          simp only [List.length_cons] at hf hlt
          omega
        cases hp' : p' with
        | false =>
          rw [hp'] at hocc
          obtain ⟨u, v, heq, -, hul, hvr⟩ := hocc
          exact ih false rest hrf w hw hne ⟨u, v, heq, fun _ => rfl, hul, hvr⟩
        | true =>
          rw [hp'] at hocc
          obtain ⟨u, v, heq, hup, hul, hvr⟩ := hocc
          cases u with
          | cons c' u' =>
            refine ih true rest hrf w hw hne ⟨c' :: u', v, heq, ?_, hul, hvr⟩
            intro hx
            exact absurd hx (by simp)
          | nil =>
            have hrh : wordAt rest.head? = false :=
              firstMatch_true_head (hp' ▸ hfm)
            rw [List.nil_append] at heq
            cases w with
            | nil => exact hne rfl
            | cons c₀ w₁ =>
              cases rest with
              | nil =>
                rw [subScanFuel_nil] at heq
                exact absurd heq (by simp)
              | cons r rs =>
                cases f with
                | zero => simp at hrf
                | succ f' =>
                  rw [subScanFuel_cons_none
                    (firstMatch_ctxTrue_none hC (r :: rs)),
                    List.cons_append] at heq
                  injection heq with he1 he2
                  have hc₀ : isWordChar c₀ = true :=
                    hC _ hw c₀ (List.mem_cons_self _ _)
                  have hrw : isWordChar r = false := by simpa using hrh
                  rw [he1, hc₀] at hrw
                  exact absurd hrw (by decide)

lemma pyStrip_decomposition (m : List Char) :
    ∃ pre post : List Char, m = pre ++ pyStrip m ++ post ∧
      (∀ c ∈ pre, isWS c = true) ∧ ∀ c ∈ post, isWS c = true := by
  refine ⟨m.takeWhile isWS, ((stripLeft m).reverse.takeWhile isWS).reverse,
    ?_, ?_, ?_⟩
  · have h1 : m.takeWhile isWS ++ stripLeft m = m :=
      List.takeWhile_append_dropWhile isWS m
    have h2 : (stripLeft m).reverse.takeWhile isWS ++
        (stripLeft m).reverse.dropWhile isWS = (stripLeft m).reverse :=
      List.takeWhile_append_dropWhile isWS (stripLeft m).reverse
    have h3 : stripLeft m =
        pyStrip m ++ ((stripLeft m).reverse.takeWhile isWS).reverse := by
      have h := congrArg List.reverse h2
      rw [List.reverse_append, List.reverse_reverse] at h
      exact h.symm
    conv_lhs => rw [← h1, h3]
    rw [List.append_assoc]
  · exact fun c hc => List.mem_takeWhile_imp hc
  · intro c hc
    rw [List.mem_reverse] at hc
    exact List.mem_takeWhile_imp hc

lemma ctxWholeWord_of_pyStrip {w m : List Char}
    (h : CtxWholeWord false w (pyStrip m)) : CtxWholeWord false w m := by
  obtain ⟨pre, post, hm, hpre, hpost⟩ := pyStrip_decomposition m
  obtain ⟨u, v, heq, -, hul, hvr⟩ := h
  refine ⟨pre ++ u, v ++ post, ?_, fun _ => rfl, ?_, ?_⟩
  · rw [hm, heq]
    simp only [List.append_assoc]
  · intro c hc
    rw [List.getLast?_append] at hc
    cases hu : u.getLast? with
    | some a =>
      rw [hu] at hc
      have hac : a = c := Option.some.inj hc
      rw [← hac]
      exact hul a hu
    | none =>
      rw [hu] at hc
      have hc' : pre.getLast? = some c := hc
      have hcm : c ∈ pre := List.mem_of_mem_getLast? (Option.mem_def.2 hc')
      exact isWS_not_wordChar (hpre c hcm)
  · intro c hc
    rw [List.head?_append] at hc
    cases hv : v.head? with
    | some a =>
      rw [hv] at hc
      have hac : a = c := Option.some.inj hc
      rw [← hac]
      exact hvr a hv
    | none =>
      rw [hv] at hc
      have hc' : post.head? = some c := hc
      have hcm : c ∈ post := List.mem_of_mem_head? (Option.mem_def.2 hc')
      exact isWS_not_wordChar (hpost c hcm)

/-- Before stripping, the normalized text of the counterexample does contain
a whole-word occurrence of the candidate — the occurrence predicate is not
vacuous. -/
lemma hasWholeWord_before_strip :
    HasWholeWord "yui".toList (pyNormalize "yui yui hola".toList) := by
  refine ⟨[], " yui hola".toList, by decide, fun _ => rfl, ?_, ?_⟩
  · intro c hc
    simp at hc
  · intro c hc
    have hc' : ' ' = c := Option.some.inj hc
    rw [← hc']
    decide

/-- **C2 (amended)**: `strip_wake_word` removes EVERY whole-word
(word-boundary-delimited) occurrence of a candidate, together with an
optional trailing colon or comma and surrounding whitespace, from the
normalized text, and trims the result — not only the first occurrence.
Formalized, for every configuration, alias override and input text whose
candidates consist of word characters (the case in which "whole-word" is
well-defined): no whole-word occurrence of any candidate remains anywhere in
the stripped output. -/
theorem claim_C2_strip_all_occurrences (s : Settings)
    (envAliases : Option (List Char)) (text : List Char)
    (hword : ∀ w ∈ wake_candidates s envAliases, ∀ c ∈ w, isWordChar c = true) :
    ∀ w ∈ wake_candidates s envAliases,
      ¬ HasWholeWord w (strip_wake_word s envAliases text) := by
  intro w hw hocc
  have hw0 : w ∈ dedupeAux
      (pyNormalize (s.wake_word.getD []) :: parseAliases envAliases) [] := hw
  have hne : w ≠ [] := (dedupeAux_mem hw0).2.2
  unfold strip_wake_word at hocc
  by_cases hc : (wake_candidates s envAliases).isEmpty = true
  · rw [List.isEmpty_iff] at hc
    rw [hc] at hw
    simp at hw
  · rw [if_neg hc] at hocc
    have hC : ∀ w' ∈ sortByLenDesc (wake_candidates s envAliases),
        ∀ c ∈ w', isWordChar c = true :=
      fun w' hw' => hword w' (sortByLenDesc_mem.1 hw')
    exact subScan_no_ctxOcc (sortByLenDesc (wake_candidates s envAliases)) hC
      (pyNormalize text).length false (pyNormalize text) le_rfl w
      (sortByLenDesc_mem.2 hw) hne (ctxWholeWord_of_pyStrip hocc)

/-- Witness for C2 (amended): wake word `"yui"` on `"yui yui hola"` — after
stripping, no whole-word occurrence of `"yui"` remains (both repetitions are
gone, as the counterexample computes concretely). -/
theorem claim_C2_witness :
    ¬ HasWholeWord "yui".toList
      (strip_wake_word yuiSettings none "yui yui hola".toList) :=
  claim_C2_strip_all_occurrences yuiSettings none "yui yui hola".toList
    (by decide) "yui".toList (by decide)

end Yui
